import Mathlib

/-!
Verification of the edit-distance / alignment library (`edit_distance.py`).

The Python source is shallowly embedded as executable Lean definitions:

* tokens are `String`s, sequences are `List String`;
* the call-local interner dictionary `tok2i` is a `List String` holding the
  keys in first-seen insertion order; the code of a token is its position in
  that list (Python assigns `tok2i[tok] = len(tok2i)`, which is exactly the
  position at which the token is appended);
* the numpy cost matrix `d` and backtrace matrix `b` are represented by the
  per-cell function `cell`, written as a structural recursion column by
  column, mirroring the source loops (outer loop over `j`, inner over `i`);
  each cell is written once and only read afterwards, so the functional
  presentation computes the same values as the imperative fill;
* the `while not (i == 0 and j == 0)` walks are modelled with an explicit
  fuel of `m + n` steps (an upper bound on the path length for a valid
  backtrace); running out of fuel yields `none`, and we prove the real
  backtrace always terminates within the fuel;
* Python list indexing (including negative indices and `IndexError`) is
  modelled by `pyGet`, returning `Option`.

The backtrace codes are those of the source: `0` DELETE, `1` INSERT,
`2` MATCH ("right"), `3` SUBSTITUTE, `-1` UNSET.
-/

/-- Position of token `tok` in the interner key list; equals the length of
the list when absent.  This is the code Python stores in `tok2i[tok]`. -/
def tokIndex (tok : String) : List String → Nat
  | [] => 0
  | x :: xs => if x = tok then 0 else tokIndex tok xs + 1

/-- Embedding of `str_to_int(tok, tok2i)`: return the code of `tok`,
inserting it with the next unused code when absent.  The updated dictionary
is returned explicitly (Python mutates it in place). -/
def str_to_int (tok : String) (tok2i : List String) : Nat × List String :=
  if tok ∈ tok2i then (tokIndex tok tok2i, tok2i)
  else (tok2i.length, tok2i ++ [tok])

/-- Embedding of `str_list_to_int_array(l, tok2i)`: an array of length
`l.length + 1` whose cell 0 holds the sentinel `-1` and whose cell `i ≥ 1`
holds the code of token `i` (1-indexed). -/
def str_list_to_int_array (l : List String) (tok2i : List String) :
    List Int × List String :=
  l.foldl
    (fun acc tok =>
      let p := str_to_int tok acc.2
      (acc.1 ++ [(p.1 : Int)], p.2))
    ([(-1 : Int)], tok2i)

/-- First index of the minimum of the tuple `(x, y, z)`, exactly as
`np.argmin` computes it (ties resolved towards the smaller index). -/
def argmin3 (x y z : Int) : Nat :=
  if x ≤ y then (if x ≤ z then 0 else 2)
  else (if y ≤ z then 1 else 2)

/-- One cell of column `jj ≥ 1` of the matrices, given the completed
previous column `prev` (mapping a row index to its `(d, b)` pair).  Row 0
is the base case `d[0][j] = j`, `b[0][j] = 1`; row `i+1` evaluates the
candidate tuple `(deletion, insertion, diagonal)` of the source and stores
`d` and the backtrace flag. -/
def colNext (rix hix : List Int) (prev : Nat → Int × Int) (jj : Nat) :
    Nat → Int × Int
  | 0 => ((jj : Int), 1)
  | i + 1 =>
    let sc : Int := if rix.getD (i + 1) (-1) = hix.getD jj (-1) then 0 else 1
    let dl : Int := (colNext rix hix prev jj i).1 + 1
    let isn : Int := (prev (i + 1)).1 + 1
    let dg : Int := (prev i).1 + sc
    let ma := argmin3 dl isn dg
    (if ma = 0 then dl else if ma = 1 then isn else dg,
     if ma = 2 then 2 + sc else (ma : Int))

/-- Column `j` of the `(d, b)` matrices as a function of the row index.
Column 0 is the base case `d[i][0] = i`, `b[i][0] = 0` for `i ≥ 1` and
`b[0][0] = -1`; column `j+1` is produced from column `j` exactly as the
source's outer loop over `j` does. -/
def cellCol (rix hix : List Int) : Nat → Nat → Int × Int
  | 0 => fun i => ((i : Int), if i = 0 then -1 else 0)
  | j + 1 => colNext rix hix (cellCol rix hix j) (j + 1)

/-- The `(d[i][j], b[i][j])` pair of the matrices filled by
`edit_distance`. -/
def cell (rix hix : List Int) (i j : Nat) : Int × Int :=
  cellCol rix hix j i

/-- Interned code arrays for reference and hypothesis, threaded through the
same call-local dictionary in the order the source interns them
(`r` first, then `h`). -/
def internPair (r h : List String) : List Int × List Int :=
  let p1 := str_list_to_int_array r []
  let p2 := str_list_to_int_array h p1.2
  (p1.1, p2.1)

/-- Embedding of `edit_distance(r, h)`: the distance `d[m][n]` together
with the backtrace matrix, exposed as a function of the two indices. -/
def edit_distance (r h : List String) : Int × (Nat → Nat → Int) :=
  let p := internPair r h
  ((cell p.1 p.2 r.length h.length).1, fun i j => (cell p.1 p.2 i j).2)

/-- Entry `d[i][j]` of the cost matrix computed inside `edit_distance`. -/
def dMat (r h : List String) (i j : Nat) : Int :=
  (cell (internPair r h).1 (internPair r h).2 i j).1

/-- Loop of `count_ops`: walk the backtrace from `(i, j)` to `(0, 0)` with
the given fuel, tallying `(n_ins, n_del, n_subst)`.  `none` models a walk
that has not reached the origin within the fuel. -/
def opsLoop (b : Nat → Nat → Int) : Nat → Nat → Nat → Option (Nat × Nat × Nat)
  | 0, i, j => if i = 0 ∧ j = 0 then some (0, 0, 0) else none
  | f + 1, i, j =>
    if i = 0 ∧ j = 0 then some (0, 0, 0)
    else if b i j = 0 then
      (opsLoop b f (i - 1) j).map (fun t => (t.1, t.2.1 + 1, t.2.2))
    else if b i j = 1 then
      (opsLoop b f i (j - 1)).map (fun t => (t.1 + 1, t.2.1, t.2.2))
    else
      (opsLoop b f (i - 1) (j - 1)).map
        (fun t => if b i j = 3 then (t.1, t.2.1, t.2.2 + 1) else t)

/-- Embedding of `count_ops(b, m, n)`; fuel `m + n` bounds the number of
loop iterations of any walk that reaches the origin. -/
def count_ops (b : Nat → Nat → Int) (m n : Nat) : Option (Nat × Nat × Nat) :=
  opsLoop b (m + n) m n

/-- Embedding of `calc_wer(r, h)`: `(m, e, n_ins, n_del, n_subst)`. -/
def calc_wer (r h : List String) : Option (Nat × Int × Nat × Nat × Nat) :=
  let m := r.length
  let n := h.length
  let eb := edit_distance r h
  (count_ops eb.2 m n).map (fun t => (m, eb.1, t.1, t.2.1, t.2.2))

/-- Loop of `make_alignment_table`: at each step first prepend the current
reference index `i` onto slot `j` of the table, then move along the
backtrace. -/
def walkHyp (b : Nat → Nat → Int) :
    Nat → Nat → Nat → List (List Nat) → Option (List (List Nat))
  | 0, i, j, a => if i = 0 ∧ j = 0 then some a else none
  | f + 1, i, j, a =>
    if i = 0 ∧ j = 0 then some a
    else
      let a2 := a.set j (i :: a.getD j [])
      if b i j = 0 then walkHyp b f (i - 1) j a2
      else if b i j = 1 then walkHyp b f i (j - 1) a2
      else walkHyp b f (i - 1) (j - 1) a2

/-- Loop of `make_ref_to_hyp_alignment_table`: prepend the current
hypothesis index `j` onto slot `i`. -/
def walkRef (b : Nat → Nat → Int) :
    Nat → Nat → Nat → List (List Nat) → Option (List (List Nat))
  | 0, i, j, a => if i = 0 ∧ j = 0 then some a else none
  | f + 1, i, j, a =>
    if i = 0 ∧ j = 0 then some a
    else
      let a2 := a.set i (j :: a.getD i [])
      if b i j = 0 then walkRef b f (i - 1) j a2
      else if b i j = 1 then walkRef b f i (j - 1) a2
      else walkRef b f (i - 1) (j - 1) a2

/-- Embedding of `make_alignment_table(b, m, n)`: a table of `n + 1`
slots (hypothesis-indexed), each slot an ascending group of reference
positions. -/
def make_alignment_table (b : Nat → Nat → Int) (m n : Nat) :
    Option (List (List Nat)) :=
  walkHyp b (m + n) m n (List.replicate (n + 1) [])

/-- Embedding of `make_ref_to_hyp_alignment_table(b, m, n)`: a table of
`m + 1` slots (reference-indexed). -/
def make_ref_to_hyp_alignment_table (b : Nat → Nat → Int) (m n : Nat) :
    Option (List (List Nat)) :=
  walkRef b (m + n) m n (List.replicate (m + 1) [])

/-- Embedding of `align_hyp_to_ref(h, r)`. -/
def align_hyp_to_ref (h r : List String) : Option (List (List Nat)) :=
  let eb := edit_distance r h
  make_alignment_table eb.2 r.length h.length

/-- Embedding of `align_ref_to_hyp(r, h)`. -/
def align_ref_to_hyp (r h : List String) : Option (List (List Nat)) :=
  let eb := edit_distance r h
  make_ref_to_hyp_alignment_table eb.2 r.length h.length

/-- Python list subscription `l[k]`: non-negative indices are 0-based,
negative indices count from the end, anything out of range raises
`IndexError` (modelled as `none`). -/
def pyGet {α : Type} (l : List α) (k : Int) : Option α :=
  let k2 : Int := if k < 0 then k + l.length else k
  if 0 ≤ k2 then l[k2.toNat]? else none

/-- Embedding of `interval_hyp_to_ref(a, h_ivl)`: look up slot `j1 + 1`'s
first element and slot `j2 + 1`'s last element and shift back to 0-based
indices.  Failure of any subscription is an `IndexError` (`none`). -/
def interval_hyp_to_ref (a : List (List Nat)) (h_ivl : Int × Int) :
    Option (Int × Int) :=
  match pyGet a (h_ivl.1 + 1) with
  | none => none
  | some g1 =>
    match pyGet g1 0 with
    | none => none
    | some i1 =>
      match pyGet a (h_ivl.2 + 1) with
      | none => none
      | some g2 =>
        match pyGet g2 (-1) with
        | none => none
        | some i2 => some ((i1 : Int) - 1, (i2 : Int) - 1)

/-- Embedding of `interval_ref_to_hyp(a, r_ivl)`. -/
def interval_ref_to_hyp (a : List (List Nat)) (r_ivl : Int × Int) :
    Option (Int × Int) :=
  match pyGet a (r_ivl.1 + 1) with
  | none => none
  | some g1 =>
    match pyGet g1 0 with
    | none => none
    | some j1 =>
      match pyGet a (r_ivl.2 + 1) with
      | none => none
      | some g2 =>
        match pyGet g2 (-1) with
        | none => none
        | some j2 => some ((j1 : Int) - 1, (j2 : Int) - 1)

/-- Modelled from the spec (claim side of the refinement): the
Wagner–Fischer recurrence `D` with base cases `D[i][0] = i`,
`D[0][j] = j` and
`D[i][j] = min(D[i-1][j]+1, D[i][j-1]+1, D[i-1][j-1]+substCost)`,
where `substCost` is 0 iff reference token `i` equals hypothesis token `j`
(1-indexed). -/
def wagnerFischer (r h : List String) : Nat → Nat → Nat
  | i, 0 => i
  | 0, j => j
  | i + 1, j + 1 =>
    min (wagnerFischer r h i (j + 1) + 1)
      (min (wagnerFischer r h (i + 1) j + 1)
        (wagnerFischer r h i j + if r[i]? = h[j]? then 0 else 1))

/-- Index of the first candidate achieving the minimum of `(x, y, z)`,
written the way the spec states the tie-break policy. -/
def firstMinIdx (x y z : Int) : Nat :=
  if x = min x (min y z) then 0
  else if y = min x (min y z) then 1 else 2

/-! ### Interner correctness

The interner assigns equal codes to equal tokens and distinct codes to
distinct tokens, so that the code comparison `rix[i] == hix[j]` in the DP
loop is equivalent to comparing the underlying tokens. -/

/-- Helper: `internAll l t` is the interner dictionary after interning all
tokens of `l` into `t`, in order. -/
def internAll (l t : List String) : List String :=
  match l with
  | [] => t
  | x :: xs => internAll xs (str_to_int x t).2

/-- Helper: the code list produced by interning the tokens of `l` into
`t`, in order. -/
def codesFrom (l t : List String) : List Int :=
  match l with
  | [] => []
  | x :: xs => ((str_to_int x t).1 : Int) :: codesFrom xs (str_to_int x t).2

theorem str_list_to_int_array_foldl (l : List String) :
    ∀ (a0 : List Int) (t : List String),
      l.foldl
        (fun acc tok =>
          let p := str_to_int tok acc.2
          (acc.1 ++ [(p.1 : Int)], p.2))
        (a0, t) = (a0 ++ codesFrom l t, internAll l t) := by
  induction l with
  | nil => intro a0 t; simp [codesFrom, internAll]
  | cons x xs ih =>
    intro a0 t
    simp only [List.foldl_cons, codesFrom, internAll, ih]
    simp

theorem str_list_to_int_array_eq (l t : List String) :
    str_list_to_int_array l t = ((-1 : Int) :: codesFrom l t, internAll l t) := by
  unfold str_list_to_int_array
  rw [str_list_to_int_array_foldl]
  simp

theorem tokIndex_append_of_mem {tok : String} {t : List String} (e : List String)
    (h : tok ∈ t) : tokIndex tok (t ++ e) = tokIndex tok t := by
  induction t with
  | nil => cases h
  | cons a t ih =>
    by_cases hax : a = tok
    · simp [tokIndex, hax]
    · rcases List.mem_cons.mp h with h1 | h2
      · exact absurd h1.symm hax
      · simp [tokIndex, hax, ih h2]

theorem tokIndex_append_self {tok : String} {t : List String} (h : tok ∉ t) :
    tokIndex tok (t ++ [tok]) = t.length := by
  induction t with
  | nil => simp [tokIndex]
  | cons a t ih =>
    have hax : a ≠ tok := fun he => h (he ▸ List.mem_cons_self a t)
    simp [tokIndex, hax, ih (fun hm => h (List.mem_cons_of_mem a hm))]

theorem tokIndex_inj {x y : String} {t : List String} (hnd : t.Nodup)
    (hx : x ∈ t) (hy : y ∈ t) (he : tokIndex x t = tokIndex y t) : x = y := by
  induction t with
  | nil => cases hx
  | cons a t ih =>
    have hnd2 := List.nodup_cons.mp hnd
    by_cases hax : a = x
    · by_cases hay : a = y
      · exact hax ▸ hay
      · exfalso
        have h1 : tokIndex x (a :: t) = 0 := by simp [tokIndex, hax]
        have h2 : tokIndex y (a :: t) = tokIndex y t + 1 := by simp [tokIndex, hay]
        omega
    · by_cases hay : a = y
      · exfalso
        have h1 : tokIndex x (a :: t) = tokIndex x t + 1 := by simp [tokIndex, hax]
        have h2 : tokIndex y (a :: t) = 0 := by simp [tokIndex, hay]
        omega
      · have hx2 : x ∈ t := by
          rcases List.mem_cons.mp hx with h1 | h2
          · exact absurd h1.symm hax
          · exact h2
        have hy2 : y ∈ t := by
          rcases List.mem_cons.mp hy with h1 | h2
          · exact absurd h1.symm hay
          · exact h2
        have h1 : tokIndex x (a :: t) = tokIndex x t + 1 := by simp [tokIndex, hax]
        have h2 : tokIndex y (a :: t) = tokIndex y t + 1 := by simp [tokIndex, hay]
        exact ih hnd2.2 hx2 hy2 (by omega)

theorem str_to_int_snd_append (x : String) (t : List String) :
    ∃ e, (str_to_int x t).2 = t ++ e := by
  unfold str_to_int
  by_cases h : x ∈ t
  · exact ⟨[], by simp [h]⟩
  · exact ⟨[x], by simp [h]⟩

theorem str_to_int_mem (x : String) (t : List String) : x ∈ (str_to_int x t).2 := by
  unfold str_to_int
  by_cases h : x ∈ t <;> simp [h]

theorem str_to_int_nodup {x : String} {t : List String} (hnd : t.Nodup) :
    (str_to_int x t).2.Nodup := by
  unfold str_to_int
  by_cases h : x ∈ t
  · simpa [h]
  · simp [h, List.Nodup.append hnd (List.nodup_singleton x)
      (by simpa [List.disjoint_singleton] using h)]

theorem str_to_int_fst {x : String} {t : List String} :
    (str_to_int x t).1 = tokIndex x (str_to_int x t).2 := by
  unfold str_to_int
  by_cases h : x ∈ t
  · simp [h]
  · simp [h, tokIndex_append_self h]

theorem internAll_append (l : List String) :
    ∀ t, ∃ e, internAll l t = t ++ e := by
  induction l with
  | nil => intro t; exact ⟨[], by simp [internAll]⟩
  | cons x xs ih =>
    intro t
    obtain ⟨e1, he1⟩ := str_to_int_snd_append x t
    obtain ⟨e2, he2⟩ := ih (str_to_int x t).2
    exact ⟨e1 ++ e2, by rw [internAll, he2, he1, List.append_assoc]⟩

theorem internAll_nodup (l : List String) :
    ∀ t, t.Nodup → (internAll l t).Nodup := by
  induction l with
  | nil => intro t h; simpa [internAll]
  | cons x xs ih => intro t h; exact ih _ (str_to_int_nodup h)

theorem internAll_mem_of_mem (l : List String) :
    ∀ t x, x ∈ t → x ∈ internAll l t := by
  induction l with
  | nil => intro t x h; simpa [internAll]
  | cons y ys ih =>
    intro t x h
    refine ih _ x ?_
    obtain ⟨e, he⟩ := str_to_int_snd_append y t
    rw [he]
    exact List.mem_append_left e h

theorem internAll_mem (l : List String) :
    ∀ t x, x ∈ l → x ∈ internAll l t := by
  induction l with
  | nil => intro t x h; cases h
  | cons y ys ih =>
    intro t x h
    rcases List.mem_cons.mp h with h1 | h2
    · rw [internAll]
      exact h1 ▸ internAll_mem_of_mem ys _ x (str_to_int_mem x t)
    · exact ih _ x h2

theorem codesFrom_length (l : List String) : ∀ t, (codesFrom l t).length = l.length := by
  induction l with
  | nil => intro t; simp [codesFrom]
  | cons x xs ih => intro t; simp [codesFrom, ih]

theorem codesFrom_getD (l : List String) :
    ∀ t i, i < l.length →
      (codesFrom l t).getD i (-1) =
        (tokIndex (l.getD i "") (internAll l t) : Int) := by
  induction l with
  | nil => intro t i h; simp at h
  | cons x xs ih =>
    intro t i h
    match i with
    | 0 =>
      simp only [codesFrom, internAll, List.getD_cons_zero]
      rw [str_to_int_fst]
      obtain ⟨e, he⟩ := internAll_append xs (str_to_int x t).2
      rw [he, tokIndex_append_of_mem e (str_to_int_mem x t)]
    | i + 1 =>
      simp only [codesFrom, internAll, List.getD_cons_succ]
      exact ih _ i (by simpa using h)

theorem codesFrom_getD_out (l : List String) :
    ∀ t i, l.length ≤ i → (codesFrom l t).getD i (-1) = -1 := by
  intro t i h
  refine List.getD_eq_default _ _ ?_
  rw [codesFrom_length]
  exact h

theorem codesFrom_nonneg (l : List String) :
    ∀ t i, i < l.length → 0 ≤ (codesFrom l t).getD i (-1) := by
  intro t i h
  rw [codesFrom_getD l t i h]
  exact Int.ofNat_nonneg _

theorem getD_mem_of_lt {l : List String} {i : Nat} (hi : i < l.length) :
    l.getD i "" ∈ l := by
  rw [List.getD_eq_getElem _ _ hi]
  exact List.getElem_mem hi

/-- Final interner dictionary of a call `edit_distance r h`. -/
def finalTab (r h : List String) : List String := internAll h (internAll r [])

theorem internPair_fst_getD (r h : List String) (i : Nat) :
    (internPair r h).1.getD (i + 1) (-1) = (codesFrom r []).getD i (-1) := by
  unfold internPair
  simp only [str_list_to_int_array_eq, List.getD_cons_succ]

theorem internPair_snd_getD (r h : List String) (j : Nat) :
    (internPair r h).2.getD (j + 1) (-1) =
      (codesFrom h (internAll r [])).getD j (-1) := by
  unfold internPair
  simp only [str_list_to_int_array_eq, List.getD_cons_succ]

theorem rix_getD (r h : List String) (i : Nat) (hi : i < r.length) :
    (internPair r h).1.getD (i + 1) (-1) =
      (tokIndex (r.getD i "") (finalTab r h) : Int) := by
  rw [internPair_fst_getD, codesFrom_getD r [] i hi]
  obtain ⟨e, he⟩ := internAll_append h (internAll r [])
  unfold finalTab
  rw [he, tokIndex_append_of_mem e (internAll_mem r [] _ (getD_mem_of_lt hi))]

theorem hix_getD (r h : List String) (j : Nat) (hj : j < h.length) :
    (internPair r h).2.getD (j + 1) (-1) =
      (tokIndex (h.getD j "") (finalTab r h) : Int) := by
  rw [internPair_snd_getD, codesFrom_getD h _ j hj]
  rfl

theorem finalTab_nodup (r h : List String) : (finalTab r h).Nodup :=
  internAll_nodup h _ (internAll_nodup r [] List.nodup_nil)

theorem finalTab_mem_left (r h : List String) {x : String} (hx : x ∈ r) :
    x ∈ finalTab r h :=
  internAll_mem_of_mem h _ x (internAll_mem r [] x hx)

theorem finalTab_mem_right (r h : List String) {x : String} (hx : x ∈ h) :
    x ∈ finalTab r h :=
  internAll_mem h _ x hx

/-- Code comparison in the DP loop is equivalent to token comparison:
`rix[i+1] == hix[j+1]` iff `r[i]? = h[j]?` (0-indexed option access, which
also handles out-of-range indices uniformly). -/
theorem code_eq_iff_tok_eq (r h : List String) (i j : Nat) :
    ((internPair r h).1.getD (i + 1) (-1) = (internPair r h).2.getD (j + 1) (-1)) ↔
      r[i]? = h[j]? := by
  by_cases hi : i < r.length
  · by_cases hj : j < h.length
    · rw [rix_getD r h i hi, hix_getD r h j hj]
      have hgi : r[i]? = some (r.getD i "") := by
        rw [List.getD_eq_getElem _ _ hi]
        exact List.getElem?_eq_getElem hi
      have hgj : h[j]? = some (h.getD j "") := by
        rw [List.getD_eq_getElem _ _ hj]
        exact List.getElem?_eq_getElem hj
      rw [hgi, hgj]
      constructor
      · intro he
        have := tokIndex_inj (finalTab_nodup r h)
          (finalTab_mem_left r h (getD_mem_of_lt hi))
          (finalTab_mem_right r h (getD_mem_of_lt hj))
          (by exact_mod_cast he)
        rw [this]
      · intro he
        simp only [Option.some.injEq] at he
        rw [he]
    · rw [internPair_snd_getD, codesFrom_getD_out h _ j (by omega)]
      rw [rix_getD r h i hi]
      have h2 : h[j]? = none := List.getElem?_eq_none (by omega)
      have h1 : r[i]? = some r[i] := List.getElem?_eq_getElem hi
      simp only [h1, h2]
      constructor
      · intro he; exfalso; omega
      · intro he; simp at he
  · rw [internPair_fst_getD, codesFrom_getD_out r [] i (by omega)]
    have h1 : r[i]? = none := List.getElem?_eq_none (by omega)
    by_cases hj : j < h.length
    · rw [hix_getD r h j hj]
      have h2 : h[j]? = some h[j] := List.getElem?_eq_getElem hj
      simp only [h1, h2]
      constructor
      · intro he; exfalso; omega
      · intro he; simp at he
    · rw [internPair_snd_getD, codesFrom_getD_out h _ j (by omega)]
      have h2 : h[j]? = none := List.getElem?_eq_none (by omega)
      simp [h1, h2]

/-! ### The DP matrices versus the Wagner–Fischer recurrence -/

/-- Substitution cost used at cell `(i, j)` of the loop (`i`, `j`
1-indexed). -/
def scAt (rix hix : List Int) (i j : Nat) : Int :=
  if rix.getD i (-1) = hix.getD j (-1) then 0 else 1

/-- Entry `b[i][j]` of the backtrace matrix computed inside
`edit_distance`. -/
def bMat (r h : List String) (i j : Nat) : Int :=
  (cell (internPair r h).1 (internPair r h).2 i j).2

theorem edit_distance_fst (r h : List String) :
    (edit_distance r h).1 = dMat r h r.length h.length := rfl

theorem edit_distance_snd (r h : List String) :
    (edit_distance r h).2 = bMat r h := rfl

theorem argmin3_pick (x y z : Int) :
    (if argmin3 x y z = 0 then x else if argmin3 x y z = 1 then y else z) =
      min x (min y z) := by
  by_cases h1 : x ≤ y <;> by_cases h2 : x ≤ z <;> by_cases h3 : y ≤ z <;>
    simp [argmin3, h1, h2, h3] <;> omega

theorem argmin3_eq_firstMinIdx (x y z : Int) : argmin3 x y z = firstMinIdx x y z := by
  unfold argmin3 firstMinIdx
  split_ifs <;> omega

theorem cell_fst_col0 (rix hix : List Int) (i : Nat) :
    (cell rix hix i 0).1 = (i : Int) := rfl

theorem cell_fst_row0 (rix hix : List Int) (j : Nat) :
    (cell rix hix 0 j).1 = (j : Int) := by
  cases j with
  | zero => rfl
  | succ j => rfl

theorem cell_snd_origin (rix hix : List Int) : (cell rix hix 0 0).2 = -1 := rfl

theorem cell_snd_col0 (rix hix : List Int) (i : Nat) :
    (cell rix hix (i + 1) 0).2 = 0 := by
  show (if i + 1 = 0 then (-1 : Int) else 0) = 0
  simp

theorem cell_snd_row0 (rix hix : List Int) (j : Nat) :
    (cell rix hix 0 (j + 1)).2 = 1 := rfl

theorem cell_fst_succ (rix hix : List Int) (i j : Nat) :
    (cell rix hix (i + 1) (j + 1)).1 =
      min ((cell rix hix i (j + 1)).1 + 1)
        (min ((cell rix hix (i + 1) j).1 + 1)
          ((cell rix hix i j).1 + scAt rix hix (i + 1) (j + 1))) := by
  have hbase : (cell rix hix (i + 1) (j + 1)).1 =
      (if argmin3 ((cell rix hix i (j + 1)).1 + 1) ((cell rix hix (i + 1) j).1 + 1)
            ((cell rix hix i j).1 + scAt rix hix (i + 1) (j + 1)) = 0 then
          (cell rix hix i (j + 1)).1 + 1
        else if argmin3 ((cell rix hix i (j + 1)).1 + 1) ((cell rix hix (i + 1) j).1 + 1)
            ((cell rix hix i j).1 + scAt rix hix (i + 1) (j + 1)) = 1 then
          (cell rix hix (i + 1) j).1 + 1
        else (cell rix hix i j).1 + scAt rix hix (i + 1) (j + 1)) := rfl
  rw [hbase, argmin3_pick]

theorem cell_snd_succ (rix hix : List Int) (i j : Nat) :
    (cell rix hix (i + 1) (j + 1)).2 =
      (if argmin3 ((cell rix hix i (j + 1)).1 + 1) ((cell rix hix (i + 1) j).1 + 1)
            ((cell rix hix i j).1 + scAt rix hix (i + 1) (j + 1)) = 2 then
        2 + scAt rix hix (i + 1) (j + 1)
      else (argmin3 ((cell rix hix i (j + 1)).1 + 1) ((cell rix hix (i + 1) j).1 + 1)
            ((cell rix hix i j).1 + scAt rix hix (i + 1) (j + 1)) : Int)) := rfl

theorem scAt_eq_tok (r h : List String) (i j : Nat) :
    scAt (internPair r h).1 (internPair r h).2 (i + 1) (j + 1) =
      (if r[i]? = h[j]? then (0 : Int) else 1) :=
  if_congr (code_eq_iff_tok_eq r h i j) rfl rfl

theorem cellD_eq (r h : List String) :
    ∀ j i, (cell (internPair r h).1 (internPair r h).2 i j).1 =
      (wagnerFischer r h i j : Int) := by
  intro j
  induction j with
  | zero =>
    intro i
    rw [show wagnerFischer r h i 0 = i from by simp [wagnerFischer]]
    exact cell_fst_col0 _ _ i
  | succ j ihj =>
    intro i
    induction i with
    | zero =>
      rw [show wagnerFischer r h 0 (j + 1) = j + 1 from by simp [wagnerFischer]]
      exact cell_fst_row0 _ _ (j + 1)
    | succ i ihi =>
      rw [cell_fst_succ, ihi, ihj (i + 1), ihj i, scAt_eq_tok]
      rw [show wagnerFischer r h (i + 1) (j + 1) =
          min (wagnerFischer r h i (j + 1) + 1)
            (min (wagnerFischer r h (i + 1) j + 1)
              (wagnerFischer r h i j + if r[i]? = h[j]? then 0 else 1)) from by
        simp [wagnerFischer]]
      by_cases hc : r[i]? = h[j]?
      · simp only [if_pos hc]
        push_cast
        omega
      · simp only [if_neg hc]
        push_cast
        omega

theorem dMat_eq (r h : List String) (i j : Nat) :
    dMat r h i j = (wagnerFischer r h i j : Int) :=
  cellD_eq r h j i

/-- C1.  The first component returned by `edit_distance(r, h)` is the value
`D[m][n]` of the Wagner–Fischer recurrence with base cases `D[i][0] = i`,
`D[0][j] = j` and
`D[i][j] = min(D[i-1][j]+1, D[i][j-1]+1, D[i-1][j-1]+substCost)`, where
`substCost` is 0 iff reference token `i` equals hypothesis token `j`.
Empty sequences are permitted. -/
theorem edit_distance_returns_wagnerFischer_distance (r h : List String) :
    (edit_distance r h).1 = (wagnerFischer r h r.length h.length : Int) := by
  rw [edit_distance_fst, dMat_eq]

/-- C2.  At every inner cell, the backtrace value is determined by the
index `k` of the first candidate (in the order deletion, insertion,
diagonal) achieving the minimum: `b` records `k` itself for deletion (0)
and insertion (1), and `2 + substCost` (i.e. MATCH = 2 when the tokens are
equal, SUBSTITUTE = 3 otherwise) when the diagonal candidate wins; and the
cell value is the selected candidate. -/
theorem backtrace_tie_break (r h : List String) (i j : Nat)
    (_hi : i < r.length) (_hj : j < h.length) :
    (edit_distance r h).2 (i + 1) (j + 1) =
      (if firstMinIdx ((wagnerFischer r h i (j + 1) : Int) + 1)
            ((wagnerFischer r h (i + 1) j : Int) + 1)
            ((wagnerFischer r h i j : Int) + if r[i]? = h[j]? then 0 else 1) = 2 then
        2 + (if r[i]? = h[j]? then (0 : Int) else 1)
      else (firstMinIdx ((wagnerFischer r h i (j + 1) : Int) + 1)
            ((wagnerFischer r h (i + 1) j : Int) + 1)
            ((wagnerFischer r h i j : Int) + if r[i]? = h[j]? then 0 else 1) : Int)) ∧
    dMat r h (i + 1) (j + 1) =
      min ((wagnerFischer r h i (j + 1) : Int) + 1)
        (min ((wagnerFischer r h (i + 1) j : Int) + 1)
          ((wagnerFischer r h i j : Int) + if r[i]? = h[j]? then 0 else 1)) := by
  constructor
  · rw [edit_distance_snd]
    unfold bMat
    rw [cell_snd_succ, scAt_eq_tok, cellD_eq r h (j + 1) i, cellD_eq r h j (i + 1),
      cellD_eq r h j i, argmin3_eq_firstMinIdx]
  · unfold dMat
    rw [cell_fst_succ, scAt_eq_tok, cellD_eq r h (j + 1) i, cellD_eq r h j (i + 1),
      cellD_eq r h j i]

/-- Witness for `backtrace_tie_break` at the concrete input
`r = ["a"]`, `h = ["b"]`, cell `(1, 1)`. -/
theorem backtrace_tie_break_witness :
    (edit_distance ["a"] ["b"]).2 1 1 =
      (if firstMinIdx ((wagnerFischer ["a"] ["b"] 0 1 : Int) + 1)
            ((wagnerFischer ["a"] ["b"] 1 0 : Int) + 1)
            ((wagnerFischer ["a"] ["b"] 0 0 : Int) +
              if (["a"] : List String)[0]? = (["b"] : List String)[0]? then 0 else 1) = 2 then
        2 + (if (["a"] : List String)[0]? = (["b"] : List String)[0]? then (0 : Int) else 1)
      else (firstMinIdx ((wagnerFischer ["a"] ["b"] 0 1 : Int) + 1)
            ((wagnerFischer ["a"] ["b"] 1 0 : Int) + 1)
            ((wagnerFischer ["a"] ["b"] 0 0 : Int) +
              if (["a"] : List String)[0]? = (["b"] : List String)[0]? then 0 else 1) : Int)) ∧
    dMat ["a"] ["b"] 1 1 =
      min ((wagnerFischer ["a"] ["b"] 0 1 : Int) + 1)
        (min ((wagnerFischer ["a"] ["b"] 1 0 : Int) + 1)
          ((wagnerFischer ["a"] ["b"] 0 0 : Int) +
            if (["a"] : List String)[0]? = (["b"] : List String)[0]? then 0 else 1)) :=
  backtrace_tie_break ["a"] ["b"] 0 0 (by decide) (by decide)

/-! ### Structure of the backtrace matrix -/

theorem argmin3_cases (x y z : Int) :
    (argmin3 x y z = 0 ∧ x ≤ y ∧ x ≤ z) ∨ (argmin3 x y z = 1 ∧ y < x ∧ y ≤ z) ∨
      (argmin3 x y z = 2 ∧ z < x ∧ z < y) := by
  by_cases h1 : x ≤ y <;> by_cases h2 : x ≤ z <;> by_cases h3 : y ≤ z <;>
    simp [argmin3, h1, h2, h3] <;> omega

theorem scAt_cases (rix hix : List Int) (i j : Nat) :
    scAt rix hix i j = 0 ∨ scAt rix hix i j = 1 := by
  unfold scAt
  split_ifs <;> simp

theorem dMat_succ (r h : List String) (i j : Nat) :
    dMat r h (i + 1) (j + 1) =
      min (dMat r h i (j + 1) + 1)
        (min (dMat r h (i + 1) j + 1)
          (dMat r h i j + scAt (internPair r h).1 (internPair r h).2 (i + 1) (j + 1))) :=
  cell_fst_succ _ _ i j

theorem bMat_succ (r h : List String) (i j : Nat) :
    bMat r h (i + 1) (j + 1) =
      (if argmin3 (dMat r h i (j + 1) + 1) (dMat r h (i + 1) j + 1)
            (dMat r h i j + scAt (internPair r h).1 (internPair r h).2 (i + 1) (j + 1)) = 2 then
        2 + scAt (internPair r h).1 (internPair r h).2 (i + 1) (j + 1)
      else (argmin3 (dMat r h i (j + 1) + 1) (dMat r h (i + 1) j + 1)
            (dMat r h i j +
              scAt (internPair r h).1 (internPair r h).2 (i + 1) (j + 1)) : Int)) :=
  cell_snd_succ _ _ i j

theorem dMat_col0 (r h : List String) (i : Nat) : dMat r h i 0 = (i : Int) :=
  cell_fst_col0 _ _ i

theorem dMat_row0 (r h : List String) (j : Nat) : dMat r h 0 j = (j : Int) :=
  cell_fst_row0 _ _ j

theorem bMat_origin (r h : List String) : bMat r h 0 0 = -1 := rfl

theorem bMat_col0 (r h : List String) (i : Nat) : bMat r h (i + 1) 0 = 0 :=
  cell_snd_col0 _ _ i

theorem bMat_row0 (r h : List String) (j : Nat) : bMat r h 0 (j + 1) = 1 :=
  cell_snd_row0 _ _ j

/-- Case analysis on a backtrace cell away from the origin: the stored flag
is one of DELETE (0), INSERT (1), MATCH (2), SUBSTITUTE (3); each flag
implies the corresponding relation between the cell's cost and its
predecessor's, and that the move stays inside the matrix. -/
theorem bMat_step (r h : List String) (i j : Nat) (hij : ¬(i = 0 ∧ j = 0)) :
    (bMat r h i j = 0 ∧ 1 ≤ i ∧ dMat r h i j = dMat r h (i - 1) j + 1) ∨
      (bMat r h i j = 1 ∧ 1 ≤ j ∧ dMat r h i j = dMat r h i (j - 1) + 1) ∨
      (bMat r h i j = 2 ∧ 1 ≤ i ∧ 1 ≤ j ∧ dMat r h i j = dMat r h (i - 1) (j - 1)) ∨
      (bMat r h i j = 3 ∧ 1 ≤ i ∧ 1 ≤ j ∧ dMat r h i j = dMat r h (i - 1) (j - 1) + 1) := by
  match i, j with
  | 0, 0 => exact absurd ⟨rfl, rfl⟩ hij
  | 0, j + 1 =>
    refine Or.inr (Or.inl ⟨bMat_row0 r h j, by omega, ?_⟩)
    rw [dMat_row0, dMat_row0]
    push_cast
    omega
  | i + 1, 0 =>
    refine Or.inl ⟨bMat_col0 r h i, by omega, ?_⟩
    rw [dMat_col0, dMat_col0]
    push_cast
    omega
  | i + 1, j + 1 =>
    rcases argmin3_cases (dMat r h i (j + 1) + 1) (dMat r h (i + 1) j + 1)
        (dMat r h i j + scAt (internPair r h).1 (internPair r h).2 (i + 1) (j + 1)) with
      ⟨ha, h1, h2⟩ | ⟨ha, h1, h2⟩ | ⟨ha, h1, h2⟩
    · refine Or.inl ⟨?_, by omega, ?_⟩
      · rw [bMat_succ, ha]; simp
      · rw [dMat_succ]
        simp only [Nat.add_sub_cancel]
        exact min_eq_left (le_min h1 h2)
    · refine Or.inr (Or.inl ⟨?_, by omega, ?_⟩)
      · rw [bMat_succ, ha]; simp
      · rw [dMat_succ]
        simp only [Nat.add_sub_cancel]
        rw [min_eq_left h2, min_eq_right h1.le]
    · rcases scAt_cases (internPair r h).1 (internPair r h).2 (i + 1) (j + 1) with hs | hs
      · refine Or.inr (Or.inr (Or.inl ⟨?_, by omega, by omega, ?_⟩))
        · rw [bMat_succ, ha, hs]; simp
        · rw [dMat_succ]
          simp only [Nat.add_sub_cancel]
          rw [min_eq_right h2.le, min_eq_right h1.le, hs, add_zero]
      · refine Or.inr (Or.inr (Or.inr ⟨?_, by omega, by omega, ?_⟩))
        · rw [bMat_succ, ha, hs]; simp
        · rw [dMat_succ]
          simp only [Nat.add_sub_cancel]
          rw [min_eq_right h2.le, min_eq_right h1.le, hs]

/-- Along the real backtrace the `count_ops` walk reaches the origin within
fuel `i + j`, and the counts it collects sum to the cost `d[i][j]`. -/
theorem opsLoop_reaches (r h : List String) :
    ∀ f i j, i + j ≤ f →
      ∃ t : Nat × Nat × Nat, opsLoop (bMat r h) f i j = some t ∧
        ((t.1 : Int) + t.2.1 + t.2.2) = dMat r h i j := by
  intro f
  induction f with
  | zero =>
    intro i j hf
    have hi : i = 0 := by omega
    have hj : j = 0 := by omega
    subst hi; subst hj
    refine ⟨(0, 0, 0), by simp [opsLoop], ?_⟩
    rw [show dMat r h 0 0 = ((0 : Nat) : Int) from dMat_col0 r h 0]
    simp
  | succ f ih =>
    intro i j hf
    by_cases h00 : i = 0 ∧ j = 0
    · obtain ⟨hi, hj⟩ := h00
      subst hi; subst hj
      refine ⟨(0, 0, 0), by simp [opsLoop], ?_⟩
      rw [show dMat r h 0 0 = ((0 : Nat) : Int) from dMat_col0 r h 0]
      simp
    · rcases bMat_step r h i j h00 with ⟨hb, hi1, hd⟩ | ⟨hb, hj1, hd⟩ |
        ⟨hb, hi1, hj1, hd⟩ | ⟨hb, hi1, hj1, hd⟩
      · obtain ⟨t, ht, hsum⟩ := ih (i - 1) j (by omega)
        refine ⟨(t.1, t.2.1 + 1, t.2.2), ?_, ?_⟩
        · simp [opsLoop, h00, hb, ht]
        · rw [hd]
          push_cast at hsum ⊢
          omega
      · obtain ⟨t, ht, hsum⟩ := ih i (j - 1) (by omega)
        refine ⟨(t.1 + 1, t.2.1, t.2.2), ?_, ?_⟩
        · simp [opsLoop, h00, hb, ht]
        · rw [hd]
          push_cast at hsum ⊢
          omega
      · obtain ⟨t, ht, hsum⟩ := ih (i - 1) (j - 1) (by omega)
        refine ⟨t, ?_, ?_⟩
        · simp [opsLoop, h00, hb, ht]
        · rw [hd]
          exact hsum
      · obtain ⟨t, ht, hsum⟩ := ih (i - 1) (j - 1) (by omega)
        refine ⟨(t.1, t.2.1, t.2.2 + 1), ?_, ?_⟩
        · simp [opsLoop, h00, hb, ht]
        · rw [hd]
          push_cast at hsum ⊢
          omega

/-- C3.  The distance returned by `edit_distance(r, h)` equals the sum
`insertions + deletions + substitutions` of the counts that `count_ops`
collects on the returned backtrace matrix, and `calc_wer(r, h)` returns
`(m, e, i, d, s)` with `e = i + d + s`. -/
theorem distance_eq_ops_sum (r h : List String) :
    ∃ nIns nDel nSub : Nat,
      count_ops ((edit_distance r h).2) r.length h.length = some (nIns, nDel, nSub) ∧
      (edit_distance r h).1 = (nIns : Int) + nDel + nSub ∧
      calc_wer r h = some (r.length, (edit_distance r h).1, nIns, nDel, nSub) := by
  obtain ⟨t, ht, hsum⟩ :=
    opsLoop_reaches r h (r.length + h.length) r.length h.length le_rfl
  refine ⟨t.1, t.2.1, t.2.2, ?_, ?_, ?_⟩
  · rw [edit_distance_snd]
    exact ht
  · rw [edit_distance_fst, ← hsum]
  · show (count_ops (edit_distance r h).2 r.length h.length).map
        (fun t => (r.length, (edit_distance r h).1, t.1, t.2.1, t.2.2)) = _
    rw [edit_distance_snd]
    unfold count_ops
    rw [ht]
    rfl

/-! ### Local variation of the cost matrix -/

theorem wF_i0 (r h : List String) (i : Nat) : wagnerFischer r h i 0 = i := by
  simp [wagnerFischer]

theorem wF_0j (r h : List String) (j : Nat) : wagnerFischer r h 0 j = j := by
  cases j <;> simp [wagnerFischer]

theorem wF_succ (r h : List String) (i j : Nat) :
    wagnerFischer r h (i + 1) (j + 1) =
      min (wagnerFischer r h i (j + 1) + 1)
        (min (wagnerFischer r h (i + 1) j + 1)
          (wagnerFischer r h i j + if r[i]? = h[j]? then 0 else 1)) := by
  simp [wagnerFischer]

theorem wF_right_le (r h : List String) (i j : Nat) :
    wagnerFischer r h i (j + 1) ≤ wagnerFischer r h i j + 1 := by
  cases i with
  | zero => rw [wF_0j, wF_0j]
  | succ i => rw [wF_succ]; omega

theorem wF_down_le (r h : List String) (i j : Nat) :
    wagnerFischer r h (i + 1) j ≤ wagnerFischer r h i j + 1 := by
  cases j with
  | zero => rw [wF_i0, wF_i0]
  | succ j => rw [wF_succ]; omega

theorem wF_le_down (r h : List String) : ∀ j i,
    wagnerFischer r h i j ≤ wagnerFischer r h (i + 1) j + 1 := by
  intro j
  induction j with
  | zero => intro i; rw [wF_i0, wF_i0]; omega
  | succ j ihj =>
    intro i
    have h1 := wF_right_le r h i j
    have h2 := ihj i
    rw [wF_succ]
    omega

theorem wF_le_right (r h : List String) : ∀ i j,
    wagnerFischer r h i j ≤ wagnerFischer r h i (j + 1) + 1 := by
  intro i
  induction i with
  | zero => intro j; rw [wF_0j, wF_0j]; omega
  | succ i ihi =>
    intro j
    have h1 := wF_down_le r h i j
    have h2 := ihi j
    rw [wF_succ]
    omega

/-- C6 counterexample.  The cost matrix is not monotone non-decreasing
along columns: for `r = h = ["a"]` the column `j = 1` decreases from
`d[0][1] = 1` to `d[1][1] = 0`. -/
theorem cost_matrix_not_monotone :
    ¬ (∀ (r h : List String) (i j : Nat), i < r.length → j ≤ h.length →
        dMat r h i j ≤ dMat r h (i + 1) j) := by
  intro hcl
  have h0 := hcl ["a"] ["a"] 0 1 (by decide) (by decide)
  have h1 : dMat ["a"] ["a"] 0 1 = 1 := by decide
  have h2 : dMat ["a"] ["a"] 1 1 = 0 := by decide
  rw [h1, h2] at h0
  omega

/-- C6 amended.  The cost matrix `d` computed inside `edit_distance`
satisfies the base cases `d[i][0] = i` and `d[0][j] = j`, and along every
row and every column adjacent entries differ by at most 1 in either
direction (the entries need not be monotone). -/
theorem cost_matrix_base_and_lipschitz (r h : List String) (i j : Nat) :
    dMat r h i 0 = i ∧ dMat r h 0 j = j ∧
      dMat r h (i + 1) j ≤ dMat r h i j + 1 ∧
      dMat r h i j ≤ dMat r h (i + 1) j + 1 ∧
      dMat r h i (j + 1) ≤ dMat r h i j + 1 ∧
      dMat r h i j ≤ dMat r h i (j + 1) + 1 := by
  refine ⟨dMat_col0 r h i, dMat_row0 r h j, ?_, ?_, ?_, ?_⟩ <;>
    rw [dMat_eq, dMat_eq]
  · exact_mod_cast wF_down_le r h i j
  · exact_mod_cast wF_le_down r h j i
  · exact_mod_cast wF_right_le r h i j
  · exact_mod_cast wF_le_right r h i j

/-! ### The backtrace path and the alignment tables

Both table builders walk the same backtrace path from `(m, n)` to
`(0, 0)`.  We reify that path as the list of visited cells (in visit
order, excluding the origin) and express each builder as a fold of
prepend-at-slot operations over it. -/

/-- List of cells visited by the backtrace walk, in visit order, within the
given fuel.  The origin `(0, 0)` (where the loop stops) is not included. -/
def pathWalk (b : Nat → Nat → Int) : Nat → Nat → Nat → Option (List (Nat × Nat))
  | 0, i, j => if i = 0 ∧ j = 0 then some [] else none
  | f + 1, i, j =>
    if i = 0 ∧ j = 0 then some []
    else if b i j = 0 then (pathWalk b f (i - 1) j).map (fun P => (i, j) :: P)
    else if b i j = 1 then (pathWalk b f i (j - 1)).map (fun P => (i, j) :: P)
    else (pathWalk b f (i - 1) (j - 1)).map (fun P => (i, j) :: P)

/-- Effect of the hypothesis-indexed table walk, as a fold over the path:
at each visited cell `(i, j)`, prepend `i` to slot `j`. -/
def tblApplyH (P : List (Nat × Nat)) (a : List (List Nat)) : List (List Nat) :=
  P.foldl (fun acc c => acc.set c.2 (c.1 :: acc.getD c.2 [])) a

/-- Effect of the reference-indexed table walk: at each visited cell
`(i, j)`, prepend `j` to slot `i`. -/
def tblApplyR (P : List (Nat × Nat)) (a : List (List Nat)) : List (List Nat) :=
  P.foldl (fun acc c => acc.set c.1 (c.2 :: acc.getD c.1 [])) a

/-- Ordering of the visited cells: both coordinates are non-increasing
along the path and the coordinate sum strictly decreases. -/
def stepRel (c c2 : Nat × Nat) : Prop :=
  c2.1 ≤ c.1 ∧ c2.2 ≤ c.2 ∧ c2.1 + c2.2 < c.1 + c.2

theorem pathWalk_succ (b : Nat → Nat → Int) (f i j : Nat) (h00 : ¬(i = 0 ∧ j = 0)) :
    pathWalk b (f + 1) i j =
      (if b i j = 0 then (pathWalk b f (i - 1) j).map (fun P => (i, j) :: P)
       else if b i j = 1 then (pathWalk b f i (j - 1)).map (fun P => (i, j) :: P)
       else (pathWalk b f (i - 1) (j - 1)).map (fun P => (i, j) :: P)) := by
  show (if i = 0 ∧ j = 0 then some [] else _) = _
  rw [if_neg h00]

theorem walkHyp_succ (b : Nat → Nat → Int) (f i j : Nat) (a : List (List Nat))
    (h00 : ¬(i = 0 ∧ j = 0)) :
    walkHyp b (f + 1) i j a =
      (if b i j = 0 then walkHyp b f (i - 1) j (a.set j (i :: a.getD j []))
       else if b i j = 1 then walkHyp b f i (j - 1) (a.set j (i :: a.getD j []))
       else walkHyp b f (i - 1) (j - 1) (a.set j (i :: a.getD j []))) := by
  show (if i = 0 ∧ j = 0 then some a else _) = _
  rw [if_neg h00]

theorem walkRef_succ (b : Nat → Nat → Int) (f i j : Nat) (a : List (List Nat))
    (h00 : ¬(i = 0 ∧ j = 0)) :
    walkRef b (f + 1) i j a =
      (if b i j = 0 then walkRef b f (i - 1) j (a.set i (j :: a.getD i []))
       else if b i j = 1 then walkRef b f i (j - 1) (a.set i (j :: a.getD i []))
       else walkRef b f (i - 1) (j - 1) (a.set i (j :: a.getD i []))) := by
  show (if i = 0 ∧ j = 0 then some a else _) = _
  rw [if_neg h00]

theorem walkHyp_eq_path (b : Nat → Nat → Int) :
    ∀ f i j a, walkHyp b f i j a =
      (pathWalk b f i j).map (fun P => tblApplyH P a) := by
  intro f
  induction f with
  | zero =>
    intro i j a
    by_cases h00 : i = 0 ∧ j = 0 <;> simp [walkHyp, pathWalk, h00, tblApplyH]
  | succ f ih =>
    intro i j a
    by_cases h00 : i = 0 ∧ j = 0
    · simp [walkHyp, pathWalk, h00, tblApplyH]
    · rw [walkHyp_succ b f i j a h00, pathWalk_succ b f i j h00]
      by_cases hb0 : b i j = 0
      · rw [if_pos hb0, if_pos hb0, ih, Option.map_map]
        rfl
      · by_cases hb1 : b i j = 1
        · rw [if_neg hb0, if_neg hb0, if_pos hb1, if_pos hb1, ih, Option.map_map]
          rfl
        · rw [if_neg hb0, if_neg hb0, if_neg hb1, if_neg hb1, ih, Option.map_map]
          rfl

theorem walkRef_eq_path (b : Nat → Nat → Int) :
    ∀ f i j a, walkRef b f i j a =
      (pathWalk b f i j).map (fun P => tblApplyR P a) := by
  intro f
  induction f with
  | zero =>
    intro i j a
    by_cases h00 : i = 0 ∧ j = 0 <;> simp [walkRef, pathWalk, h00, tblApplyR]
  | succ f ih =>
    intro i j a
    by_cases h00 : i = 0 ∧ j = 0
    · simp [walkRef, pathWalk, h00, tblApplyR]
    · rw [walkRef_succ b f i j a h00, pathWalk_succ b f i j h00]
      by_cases hb0 : b i j = 0
      · rw [if_pos hb0, if_pos hb0, ih, Option.map_map]
        rfl
      · by_cases hb1 : b i j = 1
        · rw [if_neg hb0, if_neg hb0, if_pos hb1, if_pos hb1, ih, Option.map_map]
          rfl
        · rw [if_neg hb0, if_neg hb0, if_neg hb1, if_neg hb1, ih, Option.map_map]
          rfl

theorem bMat_zero_imp (r h : List String) (i j : Nat) (hb : bMat r h i j = 0) :
    1 ≤ i := by
  match i, j with
  | 0, 0 => rw [bMat_origin] at hb; cases hb
  | 0, j + 1 => rw [bMat_row0] at hb; cases hb
  | i + 1, j => omega

theorem bMat_one_imp (r h : List String) (i j : Nat) (hb : bMat r h i j = 1) :
    1 ≤ j := by
  match i, j with
  | 0, 0 => rw [bMat_origin] at hb; cases hb
  | i + 1, 0 => rw [bMat_col0] at hb; cases hb
  | i, j + 1 => omega

/-- With the real backtrace, the path walk reaches the origin within fuel
`i + j`. -/
theorem pathWalk_total (r h : List String) :
    ∀ f i j, i + j ≤ f → ∃ P, pathWalk (bMat r h) f i j = some P := by
  intro f
  induction f with
  | zero =>
    intro i j hf
    have : i = 0 ∧ j = 0 := by omega
    exact ⟨[], by simp [pathWalk, this]⟩
  | succ f ih =>
    intro i j hf
    by_cases h00 : i = 0 ∧ j = 0
    · exact ⟨[], by simp [pathWalk, h00]⟩
    · by_cases hb0 : bMat r h i j = 0
      · have hi := bMat_zero_imp r h i j hb0
        obtain ⟨P, hP⟩ := ih (i - 1) j (by omega)
        exact ⟨(i, j) :: P, by simp [pathWalk, h00, hb0, hP]⟩
      · by_cases hb1 : bMat r h i j = 1
        · have hj := bMat_one_imp r h i j hb1
          obtain ⟨P, hP⟩ := ih i (j - 1) (by omega)
          exact ⟨(i, j) :: P, by simp [pathWalk, h00, hb0, hb1, hP]⟩
        · obtain ⟨P, hP⟩ := ih (i - 1) (j - 1) (by omega)
          exact ⟨(i, j) :: P, by simp [pathWalk, h00, hb0, hb1, hP]⟩

/-- Every visited cell is bounded by the start cell and is not the
origin. -/
theorem pathWalk_bounds (b : Nat → Nat → Int) :
    ∀ f i j P, pathWalk b f i j = some P →
      ∀ c ∈ P, c.1 ≤ i ∧ c.2 ≤ j ∧ 1 ≤ c.1 + c.2 := by
  intro f
  induction f with
  | zero =>
    intro i j P hP c hc
    by_cases h00 : i = 0 ∧ j = 0 <;> simp [pathWalk, h00] at hP
    subst hP; cases hc
  | succ f ih =>
    intro i j P hP c hc
    by_cases h00 : i = 0 ∧ j = 0
    · simp [pathWalk, h00] at hP
      subst hP; cases hc
    · have step : ∀ i2 j2 P2, i2 ≤ i → j2 ≤ j →
          pathWalk b f i2 j2 = some P2 → P = (i, j) :: P2 →
          c.1 ≤ i ∧ c.2 ≤ j ∧ 1 ≤ c.1 + c.2 := by
        intro i2 j2 P2 hi2 hj2 hP2 hPe
        subst hPe
        rcases List.mem_cons.mp hc with hch | hct
        · subst hch; refine ⟨le_rfl, le_rfl, by omega⟩
        · obtain ⟨hc1, hc2, hc3⟩ := ih i2 j2 P2 hP2 c hct
          exact ⟨le_trans hc1 hi2, le_trans hc2 hj2, hc3⟩
      by_cases hb0 : b i j = 0
      · simp only [pathWalk, if_neg h00, hb0, if_pos rfl] at hP
        obtain ⟨P2, hP2, hPe⟩ := Option.map_eq_some'.mp hP
        exact step (i - 1) j P2 (by omega) le_rfl hP2 hPe.symm
      · by_cases hb1 : b i j = 1
        · simp only [pathWalk, if_neg h00, if_neg hb0, hb1, if_pos rfl] at hP
          obtain ⟨P2, hP2, hPe⟩ := Option.map_eq_some'.mp hP
          exact step i (j - 1) P2 le_rfl (by omega) hP2 hPe.symm
        · simp only [pathWalk, if_neg h00, if_neg hb0, if_neg hb1] at hP
          obtain ⟨P2, hP2, hPe⟩ := Option.map_eq_some'.mp hP
          exact step (i - 1) (j - 1) P2 (by omega) (by omega) hP2 hPe.symm

/-- Visited cells are strictly ordered: along the path both coordinates
are non-increasing and the sum strictly decreases. -/
theorem pathWalk_pairwise (r h : List String) :
    ∀ f i j P, pathWalk (bMat r h) f i j = some P → P.Pairwise stepRel := by
  intro f
  induction f with
  | zero =>
    intro i j P hP
    by_cases h00 : i = 0 ∧ j = 0 <;> simp [pathWalk, h00] at hP
    subst hP; exact List.Pairwise.nil
  | succ f ih =>
    intro i j P hP
    by_cases h00 : i = 0 ∧ j = 0
    · simp [pathWalk, h00] at hP
      subst hP; exact List.Pairwise.nil
    · have step : ∀ i2 j2 P2, i2 ≤ i → j2 ≤ j → i2 + j2 < i + j →
          pathWalk (bMat r h) f i2 j2 = some P2 → P = (i, j) :: P2 →
          P.Pairwise stepRel := by
        intro i2 j2 P2 hi2 hj2 hsum hP2 hPe
        subst hPe
        refine List.pairwise_cons.mpr ⟨?_, ih i2 j2 P2 hP2⟩
        intro c hc
        obtain ⟨hc1, hc2, _⟩ := pathWalk_bounds (bMat r h) f i2 j2 P2 hP2 c hc
        exact ⟨le_trans hc1 hi2, le_trans hc2 hj2, by omega⟩
      by_cases hb0 : bMat r h i j = 0
      · have hi := bMat_zero_imp r h i j hb0
        simp only [pathWalk, if_neg h00, hb0, if_pos rfl] at hP
        obtain ⟨P2, hP2, hPe⟩ := Option.map_eq_some'.mp hP
        exact step (i - 1) j P2 (by omega) le_rfl (by omega) hP2 hPe.symm
      · by_cases hb1 : bMat r h i j = 1
        · have hj := bMat_one_imp r h i j hb1
          simp only [pathWalk, if_neg h00, if_neg hb0, hb1, if_pos rfl] at hP
          obtain ⟨P2, hP2, hPe⟩ := Option.map_eq_some'.mp hP
          exact step i (j - 1) P2 le_rfl (by omega) (by omega) hP2 hPe.symm
        · simp only [pathWalk, if_neg h00, if_neg hb0, if_neg hb1] at hP
          obtain ⟨P2, hP2, hPe⟩ := Option.map_eq_some'.mp hP
          exact step (i - 1) (j - 1) P2 (by omega) (by omega) (by omega) hP2 hPe.symm

theorem tblApplyH_nil (a : List (List Nat)) : tblApplyH [] a = a := rfl

theorem tblApplyH_cons (c : Nat × Nat) (P : List (Nat × Nat)) (a : List (List Nat)) :
    tblApplyH (c :: P) a = tblApplyH P (a.set c.2 (c.1 :: a.getD c.2 [])) := rfl

theorem tblApplyR_nil (a : List (List Nat)) : tblApplyR [] a = a := rfl

theorem tblApplyR_cons (c : Nat × Nat) (P : List (Nat × Nat)) (a : List (List Nat)) :
    tblApplyR (c :: P) a = tblApplyR P (a.set c.1 (c.2 :: a.getD c.1 [])) := rfl

/-- The reference-indexed fold is the hypothesis-indexed fold of the
coordinate-swapped path. -/
theorem tblApplyR_eq_swap (P : List (Nat × Nat)) :
    ∀ a, tblApplyR P a = tblApplyH (P.map Prod.swap) a := by
  induction P with
  | nil => intro a; rfl
  | cons c P ih =>
    intro a
    rw [tblApplyR_cons, List.map_cons, tblApplyH_cons, ih]
    rfl

theorem getD_set_eq (a : List (List Nat)) (k : Nat) (v : List Nat)
    (hk : k < a.length) : (a.set k v).getD k [] = v := by
  have hk2 : k < (a.set k v).length := by rw [List.length_set]; exact hk
  rw [List.getD_eq_getElem _ _ hk2]
  have h1 : (a.set k v)[k]? = some v := by rw [List.getElem?_set_eq_of_lt v hk]
  have h2 : (a.set k v)[k]? = some ((a.set k v)[k]) := List.getElem?_eq_getElem hk2
  rw [h1] at h2
  exact (Option.some_inj.mp h2).symm

theorem getD_set_ne (a : List (List Nat)) (k q : Nat) (v : List Nat)
    (hq : q ≠ k) : (a.set k v).getD q [] = a.getD q [] := by
  by_cases hql : q < a.length
  · have hq2 : q < (a.set k v).length := by rw [List.length_set]; exact hql
    rw [List.getD_eq_getElem _ _ hq2, List.getD_eq_getElem _ _ hql]
    have h1 : (a.set k v)[q]? = a[q]? := List.getElem?_set_ne (Ne.symm hq)
    have h2 : (a.set k v)[q]? = some ((a.set k v)[q]) := List.getElem?_eq_getElem hq2
    have h3 : a[q]? = some (a[q]) := List.getElem?_eq_getElem hql
    rw [h2, h3] at h1
    exact Option.some_inj.mp h1
  · rw [List.getD_eq_default _ _ (by rw [List.length_set]; omega),
      List.getD_eq_default _ _ (by omega)]

theorem tblApplyH_membership (P : List (Nat × Nat)) :
    ∀ (a : List (List Nat)), (∀ c ∈ P, c.2 < a.length) →
      ∀ x q, x ∈ (tblApplyH P a).getD q [] ↔ (x, q) ∈ P ∨ x ∈ a.getD q [] := by
  induction P with
  | nil =>
    intro a _ x q
    rw [tblApplyH_nil]
    simp
  | cons c P ih =>
    intro a hlen x q
    rw [tblApplyH_cons]
    have hc2lt : c.2 < a.length := hlen c (List.mem_cons_self c P)
    have hlen2 : ∀ c2 ∈ P, c2.2 < (a.set c.2 (c.1 :: a.getD c.2 [])).length := by
      intro c2 hc2
      rw [List.length_set]
      exact hlen c2 (List.mem_cons_of_mem c hc2)
    rw [ih _ hlen2 x q]
    by_cases hq : q = c.2
    · rw [hq, getD_set_eq a c.2 (c.1 :: a.getD c.2 []) hc2lt]
      constructor
      · rintro (hP | hm)
        · exact Or.inl (List.mem_cons_of_mem c hP)
        · rcases List.mem_cons.mp hm with he | hm2
          · refine Or.inl ?_
            rw [he]
            have hc : (c.1, c.2) = c := by
              rcases c with ⟨c1, c2⟩
              rfl
            rw [hc]
            exact List.mem_cons_self c P
          · exact Or.inr hm2
      · rintro (hP | hm)
        · rcases List.mem_cons.mp hP with he | hP2
          · refine Or.inr ?_
            have hx : x = c.1 := congrArg Prod.fst he
            rw [hx]
            exact List.mem_cons_self _ _
          · exact Or.inl hP2
        · exact Or.inr (List.mem_cons_of_mem _ hm)
    · rw [getD_set_ne a c.2 q _ hq]
      constructor
      · rintro (hP | hm)
        · exact Or.inl (List.mem_cons_of_mem c hP)
        · exact Or.inr hm
      · rintro (hP | hm)
        · rcases List.mem_cons.mp hP with he | hP2
          · exact absurd (congrArg Prod.snd he) hq
          · exact Or.inl hP2
        · exact Or.inr hm

theorem tblApplyH_sorted (P : List (Nat × Nat)) :
    ∀ (a : List (List Nat)), P.Pairwise stepRel →
      (∀ c ∈ P, c.2 < a.length) →
      (∀ c ∈ P, ∀ x ∈ a.getD c.2 [], c.1 < x) →
      (∀ q, (a.getD q []).Sorted (· < ·)) →
      ∀ q, ((tblApplyH P a).getD q []).Sorted (· < ·) := by
  induction P with
  | nil =>
    intro a _ _ _ hsort q
    rw [tblApplyH_nil]
    exact hsort q
  | cons c P ih =>
    intro a hpw hlen hinv hsort q
    have hc2lt : c.2 < a.length := hlen c (List.mem_cons_self c P)
    obtain ⟨hhead, htail⟩ := List.pairwise_cons.mp hpw
    rw [tblApplyH_cons]
    refine ih _ htail ?_ ?_ ?_ q
    · intro c2 hc2
      rw [List.length_set]
      exact hlen c2 (List.mem_cons_of_mem c hc2)
    · intro c2 hc2 x hx
      by_cases he : c2.2 = c.2
      · rw [he, getD_set_eq a c.2 _ hc2lt] at hx
        rcases List.mem_cons.mp hx with hxc | hxo
        · subst hxc
          obtain ⟨h1, h2, h3⟩ := hhead c2 hc2
          omega
        · obtain ⟨h1, _, _⟩ := hhead c2 hc2
          have := hinv c (List.mem_cons_self c P) x hxo
          omega
      · rw [getD_set_ne a c.2 c2.2 _ he] at hx
        exact hinv c2 (List.mem_cons_of_mem c hc2) x hx
    · intro q2
      by_cases he : q2 = c.2
      · rw [he, getD_set_eq a c.2 _ hc2lt]
        refine List.sorted_cons.mpr ⟨?_, hsort c.2⟩
        intro y hy
        exact hinv c (List.mem_cons_self c P) y hy
      · rw [getD_set_ne a c.2 q2 _ he]
        exact hsort q2

theorem replicate_getD (k q : Nat) :
    (List.replicate k ([] : List Nat)).getD q [] = [] := by
  by_cases hq : q < k
  · rw [List.getD_eq_getElem _ _ (by simpa using hq), List.getElem_replicate]
  · exact List.getD_eq_default _ _ (by simpa using hq)

theorem tblApplyH_length (P : List (Nat × Nat)) :
    ∀ a : List (List Nat), (tblApplyH P a).length = a.length := by
  induction P with
  | nil => intro a; rfl
  | cons c P ih =>
    intro a
    rw [tblApplyH_cons, ih, List.length_set]

theorem pathWalk_cases (b : Nat → Nat → Int) (f i j : Nat) (P : List (Nat × Nat))
    (h00 : ¬(i = 0 ∧ j = 0)) (hP : pathWalk b (f + 1) i j = some P) :
    ∃ i2 j2 P2, i - 1 ≤ i2 ∧ i2 ≤ i ∧ j - 1 ≤ j2 ∧ j2 ≤ j ∧
      pathWalk b f i2 j2 = some P2 ∧ P = (i, j) :: P2 := by
  rw [pathWalk_succ _ _ _ _ h00] at hP
  by_cases hb0 : b i j = 0
  · rw [if_pos hb0] at hP
    obtain ⟨P2, hP2, hPe⟩ := Option.map_eq_some'.mp hP
    exact ⟨i - 1, j, P2, by omega, by omega, by omega, by omega, hP2, hPe.symm⟩
  · by_cases hb1 : b i j = 1
    · rw [if_neg hb0, if_pos hb1] at hP
      obtain ⟨P2, hP2, hPe⟩ := Option.map_eq_some'.mp hP
      exact ⟨i, j - 1, P2, by omega, by omega, by omega, by omega, hP2, hPe.symm⟩
    · rw [if_neg hb0, if_neg hb1] at hP
      obtain ⟨P2, hP2, hPe⟩ := Option.map_eq_some'.mp hP
      exact ⟨i - 1, j - 1, P2, by omega, by omega, by omega, by omega, hP2, hPe.symm⟩

/-- The walk visits every column `1 ≤ q ≤ j` of its starting cell. -/
theorem pathWalk_covers_col (b : Nat → Nat → Int) :
    ∀ f i j P, pathWalk b f i j = some P →
      ∀ q, 1 ≤ q → q ≤ j → ∃ x, (x, q) ∈ P := by
  intro f
  induction f with
  | zero =>
    intro i j P hP q h1 h2
    by_cases h00 : i = 0 ∧ j = 0
    · omega
    · simp [pathWalk, h00] at hP
  | succ f ih =>
    intro i j P hP q h1 h2
    by_cases h00 : i = 0 ∧ j = 0
    · omega
    · obtain ⟨i2, j2, P2, _, _, hj2a, _, hP2, hPe⟩ := pathWalk_cases b f i j P h00 hP
      by_cases hq : q = j
      · refine ⟨i, ?_⟩
        rw [hPe, hq]
        exact List.mem_cons_self _ _
      · obtain ⟨x, hx⟩ := ih i2 j2 P2 hP2 q h1 (by omega)
        refine ⟨x, ?_⟩
        rw [hPe]
        exact List.mem_cons_of_mem _ hx

/-- The walk visits every row `1 ≤ p ≤ i` of its starting cell. -/
theorem pathWalk_covers_row (b : Nat → Nat → Int) :
    ∀ f i j P, pathWalk b f i j = some P →
      ∀ p, 1 ≤ p → p ≤ i → ∃ y, (p, y) ∈ P := by
  intro f
  induction f with
  | zero =>
    intro i j P hP p h1 h2
    by_cases h00 : i = 0 ∧ j = 0
    · omega
    · simp [pathWalk, h00] at hP
  | succ f ih =>
    intro i j P hP p h1 h2
    by_cases h00 : i = 0 ∧ j = 0
    · omega
    · obtain ⟨i2, j2, P2, hi2a, _, _, _, hP2, hPe⟩ := pathWalk_cases b f i j P h00 hP
      by_cases hp : p = i
      · refine ⟨j, ?_⟩
        rw [hPe, hp]
        exact List.mem_cons_self _ _
      · obtain ⟨y, hy⟩ := ih i2 j2 P2 hP2 p h1 (by omega)
        refine ⟨y, ?_⟩
        rw [hPe]
        exact List.mem_cons_of_mem _ hy

/-- A walk starting in column 0 at row `i` visits `(y, 0)` for every
`1 ≤ y ≤ i` (column 0 of the backtrace is all DELETE). -/
theorem pathWalk_col0 (r h : List String) :
    ∀ f i P, pathWalk (bMat r h) f i 0 = some P →
      ∀ y, 1 ≤ y → y ≤ i → (y, 0) ∈ P := by
  intro f
  induction f with
  | zero =>
    intro i P hP y hy1 hy2
    by_cases h00 : i = 0 ∧ (0 : Nat) = 0
    · omega
    · simp [pathWalk, h00] at hP
      exact absurd hP.1 (fun hi => h00 ⟨hi, rfl⟩)
  | succ f ih =>
    intro i P hP y hy1 hy2
    rcases Nat.eq_zero_or_pos i with hi | hi
    · omega
    · have h00 : ¬(i = 0 ∧ (0 : Nat) = 0) := by omega
      rw [pathWalk_succ _ _ _ _ h00] at hP
      have hb : bMat r h i 0 = 0 := by
        obtain ⟨i0, rfl⟩ : ∃ i0, i = i0 + 1 := ⟨i - 1, by omega⟩
        exact bMat_col0 r h i0
      rw [if_pos hb] at hP
      obtain ⟨P2, hP2, hPe⟩ := Option.map_eq_some'.mp hP
      by_cases hy : y = i
      · rw [← hPe, hy]
        exact List.mem_cons_self _ _
      · rw [← hPe]
        exact List.mem_cons_of_mem _ (ih (i - 1) P2 hP2 y hy1 (by omega))

/-- A walk starting in row 0 at column `j` visits `(0, y)` for every
`1 ≤ y ≤ j` (row 0 of the backtrace is all INSERT). -/
theorem pathWalk_row0 (r h : List String) :
    ∀ f j P, pathWalk (bMat r h) f 0 j = some P →
      ∀ y, 1 ≤ y → y ≤ j → (0, y) ∈ P := by
  intro f
  induction f with
  | zero =>
    intro j P hP y hy1 hy2
    by_cases h00 : (0 : Nat) = 0 ∧ j = 0
    · omega
    · simp [pathWalk, h00] at hP
      exact absurd hP.1 (fun hj => h00 ⟨rfl, hj⟩)
  | succ f ih =>
    intro j P hP y hy1 hy2
    rcases Nat.eq_zero_or_pos j with hj | hj
    · omega
    · have h00 : ¬((0 : Nat) = 0 ∧ j = 0) := by omega
      rw [pathWalk_succ _ _ _ _ h00] at hP
      have hb : bMat r h 0 j = 1 := by
        obtain ⟨j0, rfl⟩ : ∃ j0, j = j0 + 1 := ⟨j - 1, by omega⟩
        exact bMat_row0 r h j0
      rw [if_neg (by rw [hb]; omega), if_pos hb] at hP
      obtain ⟨P2, hP2, hPe⟩ := Option.map_eq_some'.mp hP
      by_cases hy : y = j
      · rw [← hPe, hy]
        exact List.mem_cons_self _ _
      · rw [← hPe]
        exact List.mem_cons_of_mem _ (ih (j - 1) P2 hP2 y hy1 (by omega))

/-- If the path visits `(x, 0)` then it visits `(y, 0)` for every
`1 ≤ y ≤ x`. -/
theorem pathWalk_col0_closure (r h : List String) :
    ∀ f i j P, pathWalk (bMat r h) f i j = some P →
      ∀ x, (x, 0) ∈ P → ∀ y, 1 ≤ y → y ≤ x → (y, 0) ∈ P := by
  intro f
  induction f with
  | zero =>
    intro i j P hP x hx y hy1 hy2
    by_cases h00 : i = 0 ∧ j = 0
    · simp [pathWalk, h00] at hP
      subst hP
      cases hx
    · simp [pathWalk, h00] at hP
  | succ f ih =>
    intro i j P hP x hx y hy1 hy2
    by_cases h00 : i = 0 ∧ j = 0
    · simp [pathWalk, h00] at hP
      subst hP
      cases hx
    · obtain ⟨i2, j2, P2, _, _, _, _, hP2, hPe⟩ := pathWalk_cases _ f i j P h00 hP
      rw [hPe] at hx
      rcases List.mem_cons.mp hx with he | hxt
      · have hj0 : j = 0 := (congrArg Prod.snd he).symm
        subst hj0
        exact pathWalk_col0 r h (f + 1) i P hP y hy1
          (by have hxi : x = i := congrArg Prod.fst he; omega)
      · rw [hPe]
        exact List.mem_cons_of_mem _ (ih i2 j2 P2 hP2 x hxt y hy1 hy2)

/-- If the path visits `(0, x)` then it visits `(0, y)` for every
`1 ≤ y ≤ x`. -/
theorem pathWalk_row0_closure (r h : List String) :
    ∀ f i j P, pathWalk (bMat r h) f i j = some P →
      ∀ x, (0, x) ∈ P → ∀ y, 1 ≤ y → y ≤ x → (0, y) ∈ P := by
  intro f
  induction f with
  | zero =>
    intro i j P hP x hx y hy1 hy2
    by_cases h00 : i = 0 ∧ j = 0
    · simp [pathWalk, h00] at hP
      subst hP
      cases hx
    · simp [pathWalk, h00] at hP
  | succ f ih =>
    intro i j P hP x hx y hy1 hy2
    by_cases h00 : i = 0 ∧ j = 0
    · simp [pathWalk, h00] at hP
      subst hP
      cases hx
    · obtain ⟨i2, j2, P2, _, _, _, _, hP2, hPe⟩ := pathWalk_cases _ f i j P h00 hP
      rw [hPe] at hx
      rcases List.mem_cons.mp hx with he | hxt
      · have hi0 : i = 0 := (congrArg Prod.fst he).symm
        subst hi0
        exact pathWalk_row0 r h (f + 1) j P hP y hy1
          (by have hxj : x = j := congrArg Prod.snd he; omega)
      · rw [hPe]
        exact List.mem_cons_of_mem _ (ih i2 j2 P2 hP2 x hxt y hy1 hy2)

/-- Two strictly sorted lists with the same members are equal. -/
theorem sorted_lt_ext : ∀ l1 l2 : List Nat, l1.Sorted (· < ·) → l2.Sorted (· < ·) →
    (∀ x, x ∈ l1 ↔ x ∈ l2) → l1 = l2 := by
  intro l1
  induction l1 with
  | nil =>
    intro l2 _ _ hm
    cases l2 with
    | nil => rfl
    | cons y t2 => exact absurd ((hm y).mpr (List.mem_cons_self y t2)) (by simp)
  | cons x t1 ih =>
    intro l2 h1 h2 hm
    cases l2 with
    | nil => exact absurd ((hm x).mp (List.mem_cons_self x t1)) (by simp)
    | cons y t2 =>
      obtain ⟨hx1, ht1⟩ := List.sorted_cons.mp h1
      obtain ⟨hy2, ht2⟩ := List.sorted_cons.mp h2
      have hxy : x = y := by
        have hx2 : x ∈ y :: t2 := (hm x).mp (List.mem_cons_self x t1)
        have hy1 : y ∈ x :: t1 := (hm y).mpr (List.mem_cons_self y t2)
        rcases List.mem_cons.mp hx2 with he | hxm
        · exact he
        · rcases List.mem_cons.mp hy1 with he2 | hym
          · exact he2.symm
          · have ha := hy2 x hxm
            have hb := hx1 y hym
            omega
      subst hxy
      have hteq : ∀ z, z ∈ t1 ↔ z ∈ t2 := by
        intro z
        constructor
        · intro hz
          have hlt := hx1 z hz
          rcases List.mem_cons.mp ((hm z).mp (List.mem_cons_of_mem x hz)) with he | hi
          · omega
          · exact hi
        · intro hz
          have hlt := hy2 z hz
          rcases List.mem_cons.mp ((hm z).mpr (List.mem_cons_of_mem x hz)) with he | hi
          · omega
          · exact hi
      rw [ih t2 ht1 ht2 hteq]

theorem sorted_head_le (a : Nat) (t : List Nat) (hs : (a :: t).Sorted (· < ·)) :
    ∀ x ∈ a :: t, a ≤ x := by
  intro x hx
  rcases List.mem_cons.mp hx with he | hm
  · omega
  · exact le_of_lt ((List.sorted_cons.mp hs).1 x hm)

theorem sorted_le_getLast : ∀ l : List Nat, l.Sorted (· < ·) →
    ∀ x ∈ l, ∀ y, l.getLast? = some y → x ≤ y := by
  intro l
  induction l with
  | nil => intro _ x hx; cases hx
  | cons a t ih =>
    intro hs x hx y hy
    cases t with
    | nil =>
      have hya : y = a := by
        have : ([a] : List Nat).getLast? = some a := rfl
        rw [this] at hy
        exact (Option.some_inj.mp hy).symm
      have hxa : x = a := by
        rcases List.mem_cons.mp hx with he | hm
        · exact he
        · cases hm
      omega
    | cons b t2 =>
      have hy2 : (b :: t2).getLast? = some y := by
        rw [← List.getLast?_cons_cons]
        exact hy
      obtain ⟨ha, ht⟩ := List.sorted_cons.mp hs
      rcases List.mem_cons.mp hx with he | hm
      · have hym : y ∈ b :: t2 := List.mem_of_mem_getLast? (by rw [hy2]; rfl)
        have := ha y hym
        omega
      · exact ih ht x hm y hy2

theorem mem_map_swap (P : List (Nat × Nat)) (y p : Nat) :
    (y, p) ∈ P.map Prod.swap ↔ (p, y) ∈ P := by
  rw [List.mem_map]
  constructor
  · rintro ⟨c, hc, he⟩
    have h1 : c.2 = y := congrArg Prod.fst he
    have h2 : c.1 = p := congrArg Prod.snd he
    have : c = (p, y) := by
      rcases c with ⟨c1, c2⟩
      simp only at h1 h2
      rw [h1, h2]
    rw [← this]
    exact hc
  · intro hc
    exact ⟨(p, y), hc, rfl⟩

/-- Shared description of the two alignment tables: both succeed, have the
documented lengths, hold exactly the cells of the common backtrace path,
and every group is strictly ascending. -/
theorem tables_spec (r h : List String) :
    ∃ P ta tb,
      pathWalk (bMat r h) (r.length + h.length) r.length h.length = some P ∧
      align_hyp_to_ref h r = some ta ∧ align_ref_to_hyp r h = some tb ∧
      ta.length = h.length + 1 ∧ tb.length = r.length + 1 ∧
      (∀ x q, x ∈ ta.getD q [] ↔ (x, q) ∈ P) ∧
      (∀ y p, y ∈ tb.getD p [] ↔ (p, y) ∈ P) ∧
      (∀ q, (ta.getD q []).Sorted (· < ·)) ∧
      (∀ p, (tb.getD p []).Sorted (· < ·)) := by
  obtain ⟨P, hP⟩ := pathWalk_total r h (r.length + h.length) r.length h.length le_rfl
  have hbounds := pathWalk_bounds (bMat r h) _ _ _ _ hP
  have hpw := pathWalk_pairwise r h _ _ _ _ hP
  have hlenA : ∀ c ∈ P, c.2 < (List.replicate (h.length + 1) ([] : List Nat)).length := by
    intro c hc
    rw [List.length_replicate]
    have := (hbounds c hc).2.1
    omega
  have hlenB : ∀ c ∈ P.map Prod.swap,
      c.2 < (List.replicate (r.length + 1) ([] : List Nat)).length := by
    intro c hc
    obtain ⟨c0, hc0, he⟩ := List.mem_map.mp hc
    rw [List.length_replicate, ← he]
    have := (hbounds c0 hc0).1
    simp only [Prod.snd_swap]
    omega
  have hpwB : (P.map Prod.swap).Pairwise stepRel := by
    refine List.Pairwise.map Prod.swap ?_ hpw
    intro c c2 hrel
    obtain ⟨h1, h2, h3⟩ := hrel
    exact ⟨h2, h1, by simp only [Prod.fst_swap, Prod.snd_swap]; omega⟩
  refine ⟨P, tblApplyH P (List.replicate (h.length + 1) []),
    tblApplyH (P.map Prod.swap) (List.replicate (r.length + 1) []), hP, ?_, ?_, ?_, ?_,
    ?_, ?_, ?_, ?_⟩
  · show make_alignment_table (edit_distance r h).2 r.length h.length = _
    rw [edit_distance_snd]
    unfold make_alignment_table
    rw [walkHyp_eq_path, hP]
    rfl
  · show make_ref_to_hyp_alignment_table (edit_distance r h).2 r.length h.length = _
    rw [edit_distance_snd]
    unfold make_ref_to_hyp_alignment_table
    rw [walkRef_eq_path, hP]
    simp only [Option.map_some']
    rw [tblApplyR_eq_swap]
  · rw [tblApplyH_length, List.length_replicate]
  · rw [tblApplyH_length, List.length_replicate]
  · intro x q
    rw [tblApplyH_membership P _ hlenA x q, replicate_getD]
    simp
  · intro y p
    rw [tblApplyH_membership (P.map Prod.swap) _ hlenB y p, replicate_getD,
      mem_map_swap]
    simp
  · intro q
    refine tblApplyH_sorted P _ hpw hlenA ?_ ?_ q
    · intro c _ x hx
      rw [replicate_getD] at hx
      cases hx
    · intro q2
      rw [replicate_getD]
      exact List.sorted_nil
  · intro p
    refine tblApplyH_sorted (P.map Prod.swap) _ hpwB hlenB ?_ ?_ p
    · intro c _ x hx
      rw [replicate_getD] at hx
      cases hx
    · intro q2
      rw [replicate_getD]
      exact List.sorted_nil

/-- C4.  In both alignment tables, every slot `p` with
`1 ≤ p ≤ (source length)` holds a non-empty group whose positions are in
(strictly) ascending order. -/
theorem alignment_groups_nonempty_ascending (r h : List String) :
    ∃ ta tb, align_hyp_to_ref h r = some ta ∧ align_ref_to_hyp r h = some tb ∧
      (∀ p, 1 ≤ p → p ≤ h.length →
        ta.getD p [] ≠ [] ∧ (ta.getD p []).Sorted (· < ·)) ∧
      (∀ p, 1 ≤ p → p ≤ r.length →
        tb.getD p [] ≠ [] ∧ (tb.getD p []).Sorted (· < ·)) := by
  obtain ⟨P, ta, tb, hP, hta, htb, _, _, hmemA, hmemB, hsortA, hsortB⟩ := tables_spec r h
  refine ⟨ta, tb, hta, htb, ?_, ?_⟩
  · intro p h1 h2
    obtain ⟨x, hx⟩ := pathWalk_covers_col (bMat r h) _ _ _ _ hP p h1 h2
    exact ⟨List.ne_nil_of_mem ((hmemA x p).mpr hx), hsortA p⟩
  · intro p h1 h2
    obtain ⟨y, hy⟩ := pathWalk_covers_row (bMat r h) _ _ _ _ hP p h1 h2
    exact ⟨List.ne_nil_of_mem ((hmemB y p).mpr hy), hsortB p⟩

/-- C7 counterexample.  For `r = ["a"]` and `h = []` the backtrace walk
does populate slot 0 of the hypothesis-indexed table: the returned table is
`[(1,)]`, whose slot 0 is the non-empty group `(1,)`. -/
theorem alignment_slot0_populated :
    align_hyp_to_ref [] ["a"] = some [[1]] ∧
      align_ref_to_hyp [] ["a"] = some [[1]] := by decide

/-- Helper: a strictly sorted downward-closed set of positive positions is
an initial run `1, …, k`. -/
theorem slot_run (s : List Nat) (hsort : s.Sorted (· < ·))
    (hmem1 : ∀ x ∈ s, 1 ≤ x)
    (hclosed : ∀ x ∈ s, ∀ y, 1 ≤ y → y ≤ x → y ∈ s) :
    s = [] ∨ ∃ k, 1 ≤ k ∧ s = List.range' 1 k := by
  by_cases hs : s = []
  · exact Or.inl hs
  · refine Or.inr ?_
    obtain ⟨k, hk⟩ := Option.isSome_iff_exists.mp (List.getLast?_isSome.mpr hs)
    have hkmem : k ∈ s := List.mem_of_mem_getLast? (by rw [hk]; rfl)
    refine ⟨k, hmem1 k hkmem, ?_⟩
    refine sorted_lt_ext s _ hsort (List.pairwise_lt_range' 1 k) ?_
    intro x
    rw [List.mem_range'_1]
    constructor
    · intro hx
      have h2 := sorted_le_getLast s hsort x hx k hk
      exact ⟨hmem1 x hx, by omega⟩
    · rintro ⟨h1, h2⟩
      exact hclosed k hkmem x h1 (by omega)

/-- C7 amended.  Slot 0 of each alignment table can be populated: it holds
exactly the initial run `1, …, k` of other-sequence positions that the walk
visits while traversing the zero column (resp. zero row), and is empty when
that part of the matrix is never visited.  (For example `r = ["a"]`,
`h = []` leaves `(1,)` in slot 0.) -/
theorem alignment_slot0_run (r h : List String) :
    ∃ ta tb, align_hyp_to_ref h r = some ta ∧ align_ref_to_hyp r h = some tb ∧
      (ta.getD 0 [] = [] ∨ ∃ k, 1 ≤ k ∧ ta.getD 0 [] = List.range' 1 k) ∧
      (tb.getD 0 [] = [] ∨ ∃ k, 1 ≤ k ∧ tb.getD 0 [] = List.range' 1 k) := by
  obtain ⟨P, ta, tb, hP, hta, htb, _, _, hmemA, hmemB, hsortA, hsortB⟩ := tables_spec r h
  have hbounds := pathWalk_bounds (bMat r h) _ _ _ _ hP
  refine ⟨ta, tb, hta, htb, ?_, ?_⟩
  · refine slot_run _ (hsortA 0) ?_ ?_
    · intro x hx
      have hm := (hmemA x 0).mp hx
      have := (hbounds (x, 0) hm).2.2
      omega
    · intro x hx y hy1 hy2
      refine (hmemA y 0).mpr ?_
      exact pathWalk_col0_closure r h _ _ _ _ hP x ((hmemA x 0).mp hx) y hy1 hy2
  · refine slot_run _ (hsortB 0) ?_ ?_
    · intro x hx
      have hm := (hmemB x 0).mp hx
      have := (hbounds (0, x) hm).2.2
      omega
    · intro x hx y hy1 hy2
      refine (hmemB y 0).mpr ?_
      exact pathWalk_row0_closure r h _ _ _ _ hP x ((hmemB x 0).mp hx) y hy1 hy2

/-! ### Python subscription lemmas -/

theorem pyGet_eq {α : Type} (l : List α) (k : Int) :
    pyGet l k =
      if 0 ≤ (if k < 0 then k + l.length else k) then
        l[(if k < 0 then k + l.length else k).toNat]?
      else none := rfl

theorem pyGet_natCast {α : Type} (l : List α) (k : Nat) :
    pyGet l (k : Int) = l[k]? := by
  rw [pyGet_eq]
  have h1 : ¬((k : Int) < 0) := by omega
  rw [if_neg h1, if_pos (by omega)]
  have h2 : ((k : Int)).toNat = k := by omega
  rw [h2]

theorem pyGet_zero {α : Type} (x : α) (t : List α) : pyGet (x :: t) 0 = some x := by
  have h0 : ((0 : Nat) : Int) = 0 := rfl
  rw [← h0, pyGet_natCast]
  simp

theorem pyGet_neg_one {α : Type} (l : List α) (hne : l ≠ []) :
    pyGet l (-1) = l.getLast? := by
  have hlen : 1 ≤ l.length := List.length_pos.mpr hne
  rw [pyGet_eq]
  have h1 : ((-1 : Int) < 0) := by omega
  rw [if_pos h1, if_pos (by omega)]
  rw [List.getLast?_eq_getElem?]
  congr 1
  omega

theorem pyGet_none {α : Type} (l : List α) (k : Int) (hk : (l.length : Int) ≤ k) :
    pyGet l k = none := by
  rw [pyGet_eq]
  have h1 : ¬(k < 0) := by omega
  rw [if_neg h1, if_pos (by omega)]
  refine List.getElem?_eq_none ?_
  omega

theorem pyGet_getD {α : Type} [Inhabited α] (l : List α) (k : Nat) (hk : k < l.length) :
    pyGet l (k : Int) = some (l.getD k default) := by
  rw [pyGet_natCast, List.getD_eq_getElem _ _ hk]
  exact List.getElem?_eq_getElem hk

theorem interval_hyp_to_ref_eval (a : List (List Nat)) (k1 k2 : Int)
    (g1 g2 : List Nat) (v1 v2 : Nat)
    (h1 : pyGet a (k1 + 1) = some g1) (h2 : pyGet g1 0 = some v1)
    (h3 : pyGet a (k2 + 1) = some g2) (h4 : pyGet g2 (-1) = some v2) :
    interval_hyp_to_ref a (k1, k2) = some ((v1 : Int) - 1, (v2 : Int) - 1) := by
  simp only [interval_hyp_to_ref, h1, h2, h3, h4]

theorem interval_ref_to_hyp_eval (a : List (List Nat)) (k1 k2 : Int)
    (g1 g2 : List Nat) (v1 v2 : Nat)
    (h1 : pyGet a (k1 + 1) = some g1) (h2 : pyGet g1 0 = some v1)
    (h3 : pyGet a (k2 + 1) = some g2) (h4 : pyGet g2 (-1) = some v2) :
    interval_ref_to_hyp a (k1, k2) = some ((v1 : Int) - 1, (v2 : Int) - 1) := by
  simp only [interval_ref_to_hyp, h1, h2, h3, h4]

theorem pyGet_some {α : Type} (l : List α) (k : Nat) (d : α) (hk : k < l.length) :
    pyGet l (k : Int) = some (l.getD k d) := by
  rw [pyGet_natCast, List.getD_eq_getElem _ _ hk]
  exact List.getElem?_eq_getElem hk

/-- C8.  Mapping an in-range hypothesis interval to the reference and back
yields an interval that contains the original. -/
theorem interval_round_trip (r h : List String) (j1 j2 : Nat)
    (h12 : j1 ≤ j2) (hj2 : j2 < h.length) :
    ∃ (ta tb : List (List Nat)) (i1 i2 j1b j2b : Int),
      align_hyp_to_ref h r = some ta ∧ align_ref_to_hyp r h = some tb ∧
      interval_hyp_to_ref ta ((j1 : Int), (j2 : Int)) = some (i1, i2) ∧
      interval_ref_to_hyp tb (i1, i2) = some (j1b, j2b) ∧
      j1b ≤ (j1 : Int) ∧ (j2 : Int) ≤ j2b := by
  obtain ⟨P, ta, tb, hP, hta, htb, hlenA, hlenB, hmemA, hmemB, hsortA, hsortB⟩ :=
    tables_spec r h
  have hbounds := pathWalk_bounds (bMat r h) _ _ _ _ hP
  have hne1 : ta.getD (j1 + 1) [] ≠ [] := by
    obtain ⟨x, hx⟩ :=
      pathWalk_covers_col (bMat r h) _ _ _ _ hP (j1 + 1) (by omega) (by omega)
    exact List.ne_nil_of_mem ((hmemA x (j1 + 1)).mpr hx)
  cases hg1 : ta.getD (j1 + 1) [] with
  | nil => exact absurd hg1 hne1
  | cons x1 t1 =>
  have hpy1 : pyGet ta ((j1 : Int) + 1) = some (x1 :: t1) := by
    have hcast : ((j1 : Int) + 1) = ((j1 + 1 : Nat) : Int) := by push_cast; ring
    rw [hcast, pyGet_some ta (j1 + 1) [] (by rw [hlenA]; omega), hg1]
  have hx1mem : x1 ∈ ta.getD (j1 + 1) [] := by
    rw [hg1]
    exact List.mem_cons_self _ _
  have hx1P : (x1, j1 + 1) ∈ P := (hmemA x1 (j1 + 1)).mp hx1mem
  have hx1le : x1 ≤ r.length := (hbounds _ hx1P).1
  have hne2 : ta.getD (j2 + 1) [] ≠ [] := by
    obtain ⟨x, hx⟩ :=
      pathWalk_covers_col (bMat r h) _ _ _ _ hP (j2 + 1) (by omega) (by omega)
    exact List.ne_nil_of_mem ((hmemA x (j2 + 1)).mpr hx)
  cases hg2 : ta.getD (j2 + 1) [] with
  | nil => exact absurd hg2 hne2
  | cons x2 t2 =>
  obtain ⟨v2, hv2⟩ := Option.isSome_iff_exists.mp
    (List.getLast?_isSome.mpr (List.cons_ne_nil x2 t2))
  have hpy2 : pyGet ta ((j2 : Int) + 1) = some (x2 :: t2) := by
    have hcast : ((j2 : Int) + 1) = ((j2 + 1 : Nat) : Int) := by push_cast; ring
    rw [hcast, pyGet_some ta (j2 + 1) [] (by rw [hlenA]; omega), hg2]
  have hpy2last : pyGet (x2 :: t2) (-1) = some v2 := by
    rw [pyGet_neg_one _ (List.cons_ne_nil x2 t2)]
    exact hv2
  have hv2mem : v2 ∈ ta.getD (j2 + 1) [] := by
    rw [hg2]
    exact List.mem_of_mem_getLast? (by rw [hv2]; rfl)
  have hv2P : (v2, j2 + 1) ∈ P := (hmemA v2 (j2 + 1)).mp hv2mem
  have hv2le : v2 ≤ r.length := (hbounds _ hv2P).1
  have hfwd : interval_hyp_to_ref ta ((j1 : Int), (j2 : Int)) =
      some ((x1 : Int) - 1, (v2 : Int) - 1) :=
    interval_hyp_to_ref_eval ta _ _ _ _ _ _ hpy1 (pyGet_zero x1 t1) hpy2 hpy2last
  have hbk1 : j1 + 1 ∈ tb.getD x1 [] := (hmemB (j1 + 1) x1).mpr hx1P
  cases hh1 : tb.getD x1 [] with
  | nil =>
    rw [hh1] at hbk1
    cases hbk1
  | cons y1 s1 =>
  have hpyb1 : pyGet tb (((x1 : Int) - 1) + 1) = some (y1 :: s1) := by
    have hcast : ((x1 : Int) - 1) + 1 = ((x1 : Nat) : Int) := by ring
    rw [hcast, pyGet_some tb x1 [] (by rw [hlenB]; omega), hh1]
  have hy1le : y1 ≤ j1 + 1 := by
    have hsorted := hsortB x1
    rw [hh1] at hsorted hbk1
    exact sorted_head_le y1 s1 hsorted (j1 + 1) hbk1
  have hbk2 : j2 + 1 ∈ tb.getD v2 [] := (hmemB (j2 + 1) v2).mpr hv2P
  cases hh2 : tb.getD v2 [] with
  | nil =>
    rw [hh2] at hbk2
    cases hbk2
  | cons y2 s2 =>
  obtain ⟨w2, hw2⟩ := Option.isSome_iff_exists.mp
    (List.getLast?_isSome.mpr (List.cons_ne_nil y2 s2))
  have hpyb2 : pyGet tb (((v2 : Int) - 1) + 1) = some (y2 :: s2) := by
    have hcast : ((v2 : Int) - 1) + 1 = ((v2 : Nat) : Int) := by ring
    rw [hcast, pyGet_some tb v2 [] (by rw [hlenB]; omega), hh2]
  have hpyb2last : pyGet (y2 :: s2) (-1) = some w2 := by
    rw [pyGet_neg_one _ (List.cons_ne_nil y2 s2)]
    exact hw2
  have hw2ge : j2 + 1 ≤ w2 := by
    have hsorted := hsortB v2
    rw [hh2] at hsorted hbk2
    exact sorted_le_getLast _ hsorted (j2 + 1) hbk2 w2 hw2
  have hbwd : interval_ref_to_hyp tb ((x1 : Int) - 1, (v2 : Int) - 1) =
      some ((y1 : Int) - 1, (w2 : Int) - 1) :=
    interval_ref_to_hyp_eval tb _ _ _ _ _ _ hpyb1 (pyGet_zero y1 s1) hpyb2 hpyb2last
  exact ⟨ta, tb, (x1 : Int) - 1, (v2 : Int) - 1, (y1 : Int) - 1, (w2 : Int) - 1,
    hta, htb, hfwd, hbwd, by omega, by omega⟩

/-- Witness for `interval_round_trip` at the concrete input
`r = h = ["x"]` and the interval `(0, 0)`. -/
theorem interval_round_trip_witness :
    ∃ (ta tb : List (List Nat)) (i1 i2 j1b j2b : Int),
      align_hyp_to_ref ["x"] ["x"] = some ta ∧
      align_ref_to_hyp ["x"] ["x"] = some tb ∧
      interval_hyp_to_ref ta (((0 : Nat) : Int), ((0 : Nat) : Int)) = some (i1, i2) ∧
      interval_ref_to_hyp tb (i1, i2) = some (j1b, j2b) ∧
      j1b ≤ ((0 : Nat) : Int) ∧ ((0 : Nat) : Int) ≤ j2b :=
  interval_round_trip ["x"] ["x"] 0 0 le_rfl (by decide)

/-- C5 counterexample.  With `r = h = ["x", "y"]` the interval `(1, 0)`
violates the precondition (`start > end`, both bounds inside `[0, 2)`), yet
`interval_hyp_to_ref` silently returns a value instead of failing. -/
theorem interval_reversed_bounds_no_failure :
    align_hyp_to_ref ["x", "y"] ["x", "y"] = some [[], [1], [2]] ∧
      interval_hyp_to_ref [[], [1], [2]] (1, 0) = some (1, 0) := by decide

/-- C5 amended.  A bound at or beyond the source sequence's length makes
the lookup fail with an out-of-range error (`none`); but an interval with
`start > end` whose bounds are in range, or with negative bounds reachable
by Python's negative indexing, is looked up without any failure. -/
theorem interval_beyond_length_fails (r h : List String) (j1 j2 : Int)
    (ta tb : List (List Nat))
    (hta : align_hyp_to_ref h r = some ta) (htb : align_ref_to_hyp r h = some tb) :
    (((h.length : Int) ≤ j1 ∨ (h.length : Int) ≤ j2) →
      interval_hyp_to_ref ta (j1, j2) = none) ∧
    (((r.length : Int) ≤ j1 ∨ (r.length : Int) ≤ j2) →
      interval_ref_to_hyp tb (j1, j2) = none) := by
  obtain ⟨P, ta2, tb2, hP, hta2, htb2, hlenA, hlenB, _, _, _, _⟩ := tables_spec r h
  rw [hta] at hta2
  rw [htb] at htb2
  have heA : ta = ta2 := Option.some_inj.mp hta2
  have heB : tb = tb2 := Option.some_inj.mp htb2
  have hlA : ta.length = h.length + 1 := by rw [heA]; exact hlenA
  have hlB : tb.length = r.length + 1 := by rw [heB]; exact hlenB
  constructor
  · rintro (hj | hj)
    · have h1 : pyGet ta (j1 + 1) = none :=
        pyGet_none ta (j1 + 1) (by rw [hlA]; push_cast; omega)
      simp only [interval_hyp_to_ref, h1]
    · cases hg : pyGet ta (j1 + 1) with
      | none => simp only [interval_hyp_to_ref, hg]
      | some g1 =>
        cases hg2 : pyGet g1 0 with
        | none => simp only [interval_hyp_to_ref, hg, hg2]
        | some v1 =>
          have h3 : pyGet ta (j2 + 1) = none :=
            pyGet_none ta (j2 + 1) (by rw [hlA]; push_cast; omega)
          simp only [interval_hyp_to_ref, hg, hg2, h3]
  · rintro (hj | hj)
    · have h1 : pyGet tb (j1 + 1) = none :=
        pyGet_none tb (j1 + 1) (by rw [hlB]; push_cast; omega)
      simp only [interval_ref_to_hyp, h1]
    · cases hg : pyGet tb (j1 + 1) with
      | none => simp only [interval_ref_to_hyp, hg]
      | some g1 =>
        cases hg2 : pyGet g1 0 with
        | none => simp only [interval_ref_to_hyp, hg, hg2]
        | some v1 =>
          have h3 : pyGet tb (j2 + 1) = none :=
            pyGet_none tb (j2 + 1) (by rw [hlB]; push_cast; omega)
          simp only [interval_ref_to_hyp, hg, hg2, h3]

/-- Witness for `interval_beyond_length_fails` at `r = h = ["x"]` and the
out-of-range interval `(5, 5)`. -/
theorem interval_beyond_length_fails_witness :
    (((1 : Int) ≤ 5 ∨ (1 : Int) ≤ 5) ∧ interval_hyp_to_ref [[], [1]] (5, 5) = none) ∧
      (((1 : Int) ≤ 5 ∨ (1 : Int) ≤ 5) ∧ interval_ref_to_hyp [[], [1]] (5, 5) = none) := by
  have hmain := interval_beyond_length_fails ["x"] ["x"] 5 5 [[], [1]] [[], [1]]
    (by decide) (by decide)
  exact ⟨⟨Or.inl (by decide), hmain.1 (Or.inl (by decide))⟩,
    ⟨Or.inl (by decide), hmain.2 (Or.inl (by decide))⟩⟩

set_option maxRecDepth 40000

/-- C9.  The documented example: for `H = [a,b,a,c,a]` and
`R = [a,b,b,a,c,c,a]`, mapping the hypothesis interval `(0, 2)` through
`align_hyp_to_ref` yields the reference interval `(0, 3)`. -/
theorem documented_example_interval :
    align_hyp_to_ref ["a", "b", "a", "c", "a"] ["a", "b", "b", "a", "c", "c", "a"] =
      some [[], [1], [2, 3], [4], [5, 6], [7]] ∧
    interval_hyp_to_ref [[], [1], [2, 3], [4], [5, 6], [7]] (0, 2) = some (0, 3) := by
  constructor
  · decide
  · decide

/-- C10.  For `r = ["b"]`, `h = ["a", "b"]` the interval `(0, 0)` satisfies
the documented precondition `0 ≤ start ≤ end < len(h)`, yet the mapped
reference interval is `(-1, -1)`: the first element of the slot-1 group is
the path position 0, so the 0-based result lies outside the reference's
index space. -/
theorem interval_can_return_minus_one :
    align_hyp_to_ref ["a", "b"] ["b"] = some [[], [0], [1]] ∧
      interval_hyp_to_ref [[], [0], [1]] (0, 0) = some (-1, -1) := by
  constructor
  · decide
  · decide

